import Mathlib

/-!
Verification of the claude-code-terminal core against its specification.

This file shallowly embeds the parts of the repository that the verified
claims are about:

* `SplitLayoutManager` / `TerminalManager` (src/src/services/SplitLayoutManager.ts)
* the PTY host process (src/pty-host.js): shell whitelist, boundary
  containment, spawn validation pipeline, set-boundary handling, and the
  newline-delimited JSON framing shared with `PtyBridge`.

JavaScript strings are embedded as `List Char`; the handful of string and
`path`-module operations the code uses are given as small executable
definitions.  Mutable objects become explicit state records, and methods
become pure functions from state to state (plus their return value and, for
the host, the list of messages written to stdout).  External effects
(the filesystem, the real pty library) enter as function parameters.
-/

namespace CCTerm

/-! ## Split layout tree (src/src/services/SplitLayoutManager.ts)

The TypeScript tree uses mutable nodes with parent pointers; ids are
allocated from a per-manager counter (`nextId`), so every reachable tree has
pairwise-distinct ids, all below `nextId`.  The embedding replaces pointer
surgery by structural replacement of the first preorder node carrying the
target id, which coincides with the pointer version on id-unique trees.
Sizes are JS numbers, embedded as `ℚ`. -/

inductive SplitDirection where
  | horizontal
  | vertical
deriving DecidableEq, Repr

/-- `SplitPaneNode`: a leaf pane (optional terminal-instance id) or a split
with a direction, two ordered children and a size pair. -/
inductive PNode where
  | pane (id : Nat) (instanceId : Option String)
  | split (id : Nat) (direction : SplitDirection) (l r : PNode) (s1 s2 : ℚ)
deriving DecidableEq, Repr

namespace PNode

def nodeId : PNode → Nat
  | pane i _ => i
  | split i _ _ _ _ _ => i

/-- `findNode`: first preorder node with the given id (the JS version checks
the root first and then recurses into the children of a split). -/
def findNode (i : Nat) : PNode → Option PNode
  | pane id inst => if id = i then some (pane id inst) else none
  | split id d l r a b =>
      if id = i then some (split id d l r a b)
      else
        match findNode i l with
        | some m => some m
        | none => findNode i r

/-- All ids in the tree are `< k` (reachable trees satisfy this for the
manager's `nextId`). -/
def allIdsLt (k : Nat) : PNode → Bool
  | pane id _ => id < k
  | split id _ l r _ _ => id < k && allIdsLt k l && allIdsLt k r

/-- `getFirstPaneId`: id of the leftmost pane. -/
def firstPaneId : PNode → Nat
  | pane id _ => id
  | split _ _ l _ _ _ => firstPaneId l

/-- Replace the first preorder node with id `i` by `repl`; the flag reports
whether a node was found (mirrors replacement through the found node's
parent pointer in `splitPane`). -/
def replaceFirst (i : Nat) (repl : PNode) : PNode → PNode × Bool
  | pane id inst => if id = i then (repl, true) else (pane id inst, false)
  | split id d l r a b =>
      if id = i then (repl, true)
      else
        match replaceFirst i repl l with
        | (l', true) => (split id d l' r a b, true)
        | (_, false) =>
            match replaceFirst i repl r with
            | (r', fr) => (split id d l r' a b, fr)

/-- Set the sizes of the first preorder node with id `i` if that node is a
split; if the first match is a pane, nothing changes (the JS
`updateSplitSizes` requires `node.type === 'split'`).  The flag reports
whether a node with the id was found at all. -/
def setSizes (i : Nat) (a b : ℚ) : PNode → PNode × Bool
  | pane id inst => (pane id inst, id = i)
  | split id d l r s1 s2 =>
      if id = i then (split id d l r a b, true)
      else
        match setSizes i a b l with
        | (l', true) => (split id d l' r s1 s2, true)
        | (_, false) =>
            match setSizes i a b r with
            | (r', fr) => (split id d l r' s1 s2, fr)

def isPaneWithId (i : Nat) : PNode → Bool
  | pane id _ => id = i
  | split _ _ _ _ _ _ => false

def paneInstance : PNode → Option String
  | pane _ inst => inst
  | split _ _ _ _ _ _ => none

/-- Close the first preorder pane with id `i` strictly inside the tree:
its parent split is replaced by the sibling (`closePane`'s splice through
the grandparent pointer).  Returns the rewritten tree, the closed pane's
instance id, and `getFirstPaneId` of the promoted sibling (used for the
active-pane update). -/
def removePane (i : Nat) : PNode → Option (PNode × Option String × Nat)
  | pane _ _ => none
  | split id d l r a b =>
      if isPaneWithId i l then some (r, paneInstance l, firstPaneId r)
      else
        match removePane i l with
        | some (l', inst, fp) => some (split id d l' r a b, inst, fp)
        | none =>
            if isPaneWithId i r then some (l, paneInstance r, firstPaneId l)
            else
              match removePane i r with
              | some (r', inst, fp) => some (split id d l r' a b, inst, fp)
              | none => none

end PNode

structure SplitLayout where
  root : PNode
  activePane : Nat
deriving DecidableEq, Repr

structure ManagerState where
  layout : SplitLayout
  nextId : Nat
deriving DecidableEq, Repr

namespace ManagerState

/-- Initial manager state: a single root pane with no instance. -/
def init : ManagerState :=
  { layout := { root := .pane 1 none, activePane := 1 }, nextId := 2 }

/-- `splitPane(paneId, direction, newInstanceId)`: replaces the target pane
by a split whose children are (the original pane, a fresh pane holding the
new instance id); the new pane becomes active.  `createPaneNode` allocates
the pane id first, `createSplitNode` the split id (`instanceId || undefined`
maps the empty string to `none`).  Returns the new pane id, or `none` if the
id does not name a pane. -/
def splitPane (st : ManagerState) (paneId : Nat) (dir : SplitDirection)
    (newInstanceId : String) : ManagerState × Option Nat :=
  match PNode.findNode paneId st.layout.root with
  | some (.pane pid pinst) =>
      let newPane : PNode := .pane st.nextId (if newInstanceId = "" then none else some newInstanceId)
      let splitNode : PNode := .split (st.nextId + 1) dir (.pane pid pinst) newPane 50 50
      let root' := (PNode.replaceFirst paneId splitNode st.layout.root).1
      ({ layout := { root := root', activePane := st.nextId }, nextId := st.nextId + 2 },
       some st.nextId)
  | _ => (st, none)

/-- `closePane(paneId)`: fails (returns `none`, state unchanged) when the id
does not name a pane or names the root pane; otherwise promotes the sibling
and, if the closed pane was active, moves activity to the first pane of the
promoted sibling.  On success returns the closed pane's instance id. -/
def closePane (st : ManagerState) (paneId : Nat) : ManagerState × Option (Option String) :=
  match PNode.findNode paneId st.layout.root with
  | some (.pane _ _) =>
      if st.layout.root.nodeId = paneId then (st, none)
      else
        match PNode.removePane paneId st.layout.root with
        | some (root', closedInst, fp) =>
            ({ layout :=
                { root := root',
                  activePane := if st.layout.activePane = paneId then fp else st.layout.activePane },
               nextId := st.nextId },
             some closedInst)
        | none => (st, none)
  | _ => (st, none)

/-- `updateSplitSizes(splitId, sizes)`: overwrites the split's size pair
verbatim — the tree does not clamp. -/
def updateSplitSizes (st : ManagerState) (splitId : Nat) (a b : ℚ) : ManagerState :=
  { st with layout := { st.layout with root := (PNode.setSizes splitId a b st.layout.root).1 } }

end ManagerState

/-! ## Terminal session registry (TerminalManager in
src/src/services/SplitLayoutManager.ts)

The JS `Map` keeps insertion order, which is creation order here because
entries are only ever added by `createInstance`; it is embedded as a list in
insertion order.  `getAllInstances` is `Array.from(map.values()).sort((a, b)
=> a.createdAt - b.createdAt)` — a stable sort by `createdAt` (JS sort is
stable), embedded as a stable insertion sort, which produces the same list. -/

inductive ConnectionStatus where
  | disconnected
  | connecting
  | connected
  | error
deriving DecidableEq, Repr

structure Project where
  name : String
  path : String
deriving DecidableEq, Repr

structure TerminalInstance where
  id : String
  name : String
  project : Option Project
  status : ConnectionStatus
  createdAt : Nat
deriving DecidableEq, Repr

structure TerminalManagerState where
  instances : List TerminalInstance
  activeInstanceId : Option String
  instanceCounter : Nat
deriving DecidableEq, Repr

namespace TerminalManagerState

/-- Stable insertion by `createdAt`: the inserted element goes before
strictly later elements and after earlier-or-equal ones, so elements with
equal `createdAt` keep their original (creation) order. -/
def insertByCreated (x : TerminalInstance) :
    List TerminalInstance → List TerminalInstance
  | [] => [x]
  | y :: ys =>
      if y.createdAt < x.createdAt then y :: insertByCreated x ys
      else x :: y :: ys

/-- Stable sort by `createdAt` (the unique result of any stable sort with
the comparator `a.createdAt - b.createdAt`). -/
def sortByCreated : List TerminalInstance → List TerminalInstance
  | [] => []
  | x :: xs => insertByCreated x (sortByCreated xs)

/-- `getAllInstances()`: all sessions ordered by creation time. -/
def getAllInstances (st : TerminalManagerState) : List TerminalInstance :=
  sortByCreated st.instances

/-- `createInstance(project)`: allocates `terminal-<now>-<counter>`, default
name from the project (`project?.name || ...`, so an empty name also falls
back), status `disconnected`; the first instance becomes active. -/
def createInstance (st : TerminalManagerState) (project : Option Project)
    (now : Nat) : TerminalManagerState × TerminalInstance :=
  let counter := st.instanceCounter + 1
  let id := s!"terminal-{now}-{counter}"
  let inst : TerminalInstance :=
    { id := id
      name := match project with
        | some p => if p.name = "" then s!"Terminal {counter}" else p.name
        | none => s!"Terminal {counter}"
      project := project
      status := .disconnected
      createdAt := now }
  let instances' := st.instances ++ [inst]
  ({ instances := instances'
     activeInstanceId :=
       if instances'.length = 1 then some id else st.activeInstanceId
     instanceCounter := counter }, inst)

/-- Registry contents after deleting the entry with the given id
(`Map.delete`, embedded as a filter — identical on the id-unique lists the
manager builds). -/
def remainingAfter (st : TerminalManagerState) (id : String) :
    List TerminalInstance :=
  st.instances.filter (fun i => ¬ i.id = id)

/-- `removeInstance(id)`: removes the entry and, when the removed instance
was the active one, reassigns activity to the head of the
creation-time-sorted remaining list, or to `none` when nothing remains. -/
def removeInstance (st : TerminalManagerState) (id : String) :
    TerminalManagerState × Bool :=
  if st.instances.any (fun i => i.id = id) then
    ({ instances := st.remainingAfter id
       activeInstanceId :=
         if st.activeInstanceId = some id then
           ((sortByCreated (st.remainingAfter id)).head?).map (fun i => i.id)
         else st.activeInstanceId
       instanceCounter := st.instanceCounter }, true)
  else (st, false)

/-- Number of registry entries the active id points at. -/
def activeCount (st : TerminalManagerState) : Nat :=
  (st.instances.filter (fun i => some i.id = st.activeInstanceId)).length

end TerminalManagerState

/-- Concrete two-session registry: ids `a` (created at 5, active) and `b`
(created at 3). -/
def twoSessionRegistry : TerminalManagerState :=
  { instances := [⟨"a", "a", none, .disconnected, 5⟩, ⟨"b", "b", none, .disconnected, 3⟩]
    activeInstanceId := some "a"
    instanceCounter := 2 }

/-- Specification-side notion: `m` is the earliest-created member of `l`,
with ties broken by creation (list) order — every element before `m` was
created strictly later, every element after it no earlier. -/
def IsEarliestCreated (m : TerminalInstance) (l : List TerminalInstance) : Prop :=
  ∃ pre post, l = pre ++ m :: post
    ∧ (∀ y ∈ pre, m.createdAt < y.createdAt)
    ∧ (∀ y ∈ post, m.createdAt ≤ y.createdAt)

/-! ## JavaScript strings and the Node `path` module

JS strings are embedded as `List Char` so that the string operations the
host uses (`split`, `startsWith`, `endsWith`, `toLowerCase`, `trim`,
concatenation) become ordinary list functions.  The `path` module is
modeled in its POSIX variant — the variant the spec's boundary examples
use — except for `basename`, whose Windows flavour (both separators) is
needed by the shell whitelist; Windows drive-letter resolution is not
modeled and no verified claim exercises the boundary check on win32. -/

abbrev Str := List Char

namespace Js

/-- `String.prototype.toLowerCase` restricted to ASCII, the only case
folding the compared shell names and paths rely on. -/
def lowerChar (c : Char) : Char :=
  match c with
  | 'A' => 'a' | 'B' => 'b' | 'C' => 'c' | 'D' => 'd' | 'E' => 'e' | 'F' => 'f'
  | 'G' => 'g' | 'H' => 'h' | 'I' => 'i' | 'J' => 'j' | 'K' => 'k' | 'L' => 'l'
  | 'M' => 'm' | 'N' => 'n' | 'O' => 'o' | 'P' => 'p' | 'Q' => 'q' | 'R' => 'r'
  | 'S' => 's' | 'T' => 't' | 'U' => 'u' | 'V' => 'v' | 'W' => 'w' | 'X' => 'x'
  | 'Y' => 'y' | 'Z' => 'z'
  | other => other

def toLower (s : Str) : Str := s.map lowerChar

/-- `String.prototype.split` for a one-character separator class: always a
nonempty list of separator-free pieces. -/
def splitOnPred (p : Char → Bool) : Str → List Str
  | [] => [[]]
  | x :: xs =>
      match splitOnPred p xs with
      | [] => [[]]
      | y :: ys => if p x then [] :: y :: ys else (x :: y) :: ys

def splitOnChar (c : Char) : Str → List Str :=
  splitOnPred (fun x => x = c)

/-- `String.prototype.trim` (whitespace at both ends). -/
def trim (s : Str) : Str :=
  ((s.dropWhile Char.isWhitespace).reverse.dropWhile Char.isWhitespace).reverse

end Js

namespace NodePath

open Js

inductive Platform where
  | win32
  | darwin
  | linux
deriving DecidableEq, Repr

/-- `path.sep` of the platform's `path` module. -/
def sep : Platform → Char
  | .win32 => '\\'
  | .darwin => '/'
  | .linux => '/'

def isSepChar (pf : Platform) (c : Char) : Bool :=
  if pf = .win32 then decide (c = '/' ∨ c = '\\') else decide (c = '/')

/-- `path.basename` (no extension argument): the last nonempty segment
after splitting on the platform's separator characters.  Exotic inputs this
code base never produces (drive-relative Windows paths such as `C:file`)
are not specially cased. -/
def basename (pf : Platform) (s : Str) : Str :=
  ((splitOnPred (isSepChar pf) s).filter (fun part => part ≠ [])).getLastD []

/-- One step of `path.posix.resolve` normalization over the split segments:
empty and `.` segments are dropped, `..` pops (a no-op at the root). -/
def normStep (acc : List Str) (c : Str) : List Str :=
  if c = [] ∨ c = ['.'] then acc
  else if c = ['.', '.'] then acc.dropLast
  else acc ++ [c]

def normComps (l : List Str) : List Str := l.foldl normStep []

/-- Canonical text of an absolute POSIX path from its component list. -/
def joinComps : List Str → Str
  | [] => []
  | [c] => c
  | c :: cs => c ++ '/' :: joinComps cs

def renderAbs (cs : List Str) : Str := '/' :: joinComps cs

/-- Components of `path.posix.resolve(p)` against an explicit process
working directory: an absolute path is normalized, a relative one is first
joined to the process cwd. -/
def resolveComps (processCwd p : Str) : List Str :=
  if p.head? = some '/' then normComps (splitOnChar '/' p)
  else normComps (splitOnChar '/' (processCwd ++ '/' :: p))

/-- `path.posix.resolve(p)` against an explicit process working
directory. -/
def resolvePosix (processCwd p : Str) : Str :=
  renderAbs (resolveComps processCwd p)

/-- `path.posix.dirname`, exact on the resolved absolute paths the host
applies it to (`path.dirname(vaultBoundary)` where `vaultBoundary =
path.resolve(...)`). -/
def dirnamePosix (s : Str) : Str :=
  if s.head? = some '/' then
    renderAbs (((splitOnChar '/' s).filter (fun part => part ≠ [])).dropLast)
  else s

/-- A well-formed canonical path component: nonempty, not a dot segment,
and separator-free — exactly what `normComps` produces. -/
def GoodComp (c : Str) : Prop :=
  c ≠ [] ∧ c ≠ ['.'] ∧ c ≠ ['.', '.'] ∧ '/' ∉ c

instance (c : Str) : Decidable (GoodComp c) := by
  unfold GoodComp
  infer_instance

end NodePath

/-! ## PTY host process (src/pty-host.js)

State: at most one live pty (`ptyProcess`, embedded as its pid) and the
optional vault boundary.  The platform (`os.platform()`) and the process
working directory (used by one-argument `path.resolve`) are part of the
state; the filesystem (`fs.statSync(...).isDirectory()`), the
`fs.realpathSync` fallback (`getRealPath`) and the pty library's response
are passed in as parameters.  `console.error` logging and the sanitized
environment contents are not observed by any claim and are omitted from
the message model. -/

namespace PtyHost

open Js NodePath

/-- `SHELL_WHITELIST`: fixed per-platform allow-list.  All three platforms
are present, so the `|| SHELL_WHITELIST.linux` fallback never fires. -/
def SHELL_WHITELIST (pf : Platform) : List Str :=
  match pf with
  | .win32 =>
      ["powershell.exe", "pwsh.exe", "cmd.exe", "powershell", "pwsh", "cmd",
       "C:\\Windows\\System32\\WindowsPowerShell\\v1.0\\powershell.exe",
       "C:\\Windows\\System32\\cmd.exe",
       "C:\\Program Files\\PowerShell\\7\\pwsh.exe"].map String.toList
  | .darwin =>
      ["zsh", "bash", "sh", "/bin/zsh", "/bin/bash", "/bin/sh",
       "/usr/local/bin/zsh", "/usr/local/bin/bash"].map String.toList
  | .linux =>
      ["bash", "zsh", "sh", "/bin/bash", "/bin/zsh", "/bin/sh",
       "/usr/bin/bash", "/usr/bin/zsh"].map String.toList

/-- `isShellAllowed(shell)`: the trimmed, lower-cased shell string must
equal an allow-list entry, end with separator-plus-entry, or share its
basename with an entry. -/
def isShellAllowed (pf : Platform) (shell : Str) : Bool :=
  let whitelist := SHELL_WHITELIST pf
  let normalizedShell := toLower (trim shell)
  whitelist.any fun allowed =>
    let normalizedAllowed := toLower allowed
    normalizedShell == normalizedAllowed
    || (sep pf :: normalizedAllowed).isSuffixOf normalizedShell
    || basename pf normalizedShell == basename pf normalizedAllowed

/-- `isPathWithinBoundary(targetPath, boundary)`: resolve both, lower-case,
then equality or prefix-plus-`path.sep`.  A missing or empty boundary is
falsy and counts as within (`if (!boundary) return true`). -/
def isPathWithinBoundary (processCwd target : Str) (boundary : Option Str) : Bool :=
  match boundary with
  | none => true
  | some b =>
      if b = [] then true
      else
        let normalizedTarget := toLower (resolvePosix processCwd target)
        let normalizedBoundary := toLower (resolvePosix processCwd b)
        normalizedTarget == normalizedBoundary
        || (normalizedBoundary ++ ['/']).isPrefixOf normalizedTarget

/-- The boundary stage of `spawnPty`: the working directory may sit within
the vault, the vault's parent (`path.dirname`) or its grandparent. -/
def boundaryCheckPasses (processCwd cwd vaultBoundary : Str) : Bool :=
  let vaultParent := dirnamePosix vaultBoundary
  let vaultGrandparent := dirnamePosix vaultParent
  isPathWithinBoundary processCwd cwd (some vaultBoundary)
  || isPathWithinBoundary processCwd cwd (some vaultParent)
  || isPathWithinBoundary processCwd cwd (some vaultGrandparent)

inductive ErrCode where
  | DOUBLE_SPAWN
  | SHELL_NOT_ALLOWED
  | INVALID_CWD
  | CWD_OUTSIDE_BOUNDARY
  | SPAWN_EXCEPTION
  | INVALID_PTY
  | SPAWN_FAILED
  | UNCAUGHT_EXCEPTION
  | UNHANDLED_REJECTION
deriving DecidableEq, Repr

structure SpawnOptions where
  shell : Str
  cwd : Str
  cols : Nat
  rows : Nat
  args : List Str
deriving DecidableEq, Repr

/-- Host-to-bridge messages (`send(type, data)` payloads, data details kept
only where a claim observes them). -/
inductive OutMsg where
  | ready
  | boundarySet (path : Str)
  | spawned (pid : Nat) (cwd : Str) (shell : Str)
  | dataOut (chunk : Str)
  | exited (exitCode : Int)
  | err (code : ErrCode)
deriving DecidableEq, Repr

structure HostState where
  ptyProcess : Option Nat
  vaultBoundary : Option Str
  processCwd : Str
  platform : Platform
deriving DecidableEq, Repr

/-- Outcome of the external `pty.spawn` call: it may throw
(`SPAWN_EXCEPTION`), return an object without a pid (`INVALID_PTY`), or
yield a live process. -/
inductive PtyOutcome where
  | threw
  | invalid
  | ok (pid : Nat)
deriving DecidableEq, Repr

/-- The `if (vaultBoundary) { ... }` stage of `spawnPty`: it rejects
exactly when a boundary is set and the three-way containment check fails
(with no boundary the stage is skipped entirely). -/
def boundaryStageRejects (st : HostState) (cwd : Str) : Bool :=
  match st.vaultBoundary with
  | some vb => ¬ boundaryCheckPasses st.processCwd cwd vb
  | none => false

/-- `spawnPty(options)`: the validation pipeline (double-spawn guard, shell
whitelist, directory existence, boundary containment) short-circuits on
the first failure with a typed error and leaves the state untouched; on
success the pty slot is filled and `spawned` is emitted with the
`getRealPath`-resolved working directory. -/
def spawnPty (fsIsDir : Str → Bool) (ptyRes : PtyOutcome) (realPath : Str → Str)
    (st : HostState) (o : SpawnOptions) : HostState × List OutMsg :=
  if st.ptyProcess.isSome then
    (st, [.err .DOUBLE_SPAWN])
  else if ¬ isShellAllowed st.platform o.shell then
    (st, [.err .SHELL_NOT_ALLOWED])
  else if ¬ fsIsDir o.cwd then
    (st, [.err .INVALID_CWD])
  else if boundaryStageRejects st o.cwd then
    (st, [.err .CWD_OUTSIDE_BOUNDARY])
  else
    match ptyRes with
    | .threw => (st, [.err .SPAWN_EXCEPTION])
    | .invalid => (st, [.err .INVALID_PTY])
    | .ok pid =>
        ({ st with ptyProcess := some pid },
         [.spawned pid (realPath o.cwd) o.shell])

/-- Comparison pipeline for C10: `spawnPty` with the boundary-containment
stage removed.  With no boundary set the real pipeline coincides with it,
making precise that the containment step is skipped entirely. -/
def spawnPtyUnchecked (fsIsDir : Str → Bool) (ptyRes : PtyOutcome)
    (realPath : Str → Str) (st : HostState) (o : SpawnOptions) :
    HostState × List OutMsg :=
  if st.ptyProcess.isSome then
    (st, [.err .DOUBLE_SPAWN])
  else if ¬ isShellAllowed st.platform o.shell then
    (st, [.err .SHELL_NOT_ALLOWED])
  else if ¬ fsIsDir o.cwd then
    (st, [.err .INVALID_CWD])
  else
    match ptyRes with
    | .threw => (st, [.err .SPAWN_EXCEPTION])
    | .invalid => (st, [.err .INVALID_PTY])
    | .ok pid =>
        ({ st with ptyProcess := some pid },
         [.spawned pid (realPath o.cwd) o.shell])

/-- Bridge-to-host messages. -/
inductive InMsg where
  | spawn (o : SpawnOptions)
  | write (data : Str)
  | resize (cols rows : Nat)
  | kill
  | setBoundary (path : Option Str)
deriving DecidableEq, Repr

/-- `handleMessage(msg)`: `write`/`resize` act on the pty (external I/O,
nothing observable in the model), `kill` clears the pty slot,
`set-boundary` stores the resolved path and acknowledges with
`boundary-set` only when the payload has a non-empty `path` naming an
existing directory (`msg.data && msg.data.path &&
isValidDirectory(msg.data.path)`; a missing payload or empty path is
falsy) — otherwise it does nothing and sends nothing. -/
def handleMessage (fsIsDir : Str → Bool) (ptyRes : PtyOutcome)
    (realPath : Str → Str) (st : HostState) (m : InMsg) : HostState × List OutMsg :=
  match m with
  | .spawn o => spawnPty fsIsDir ptyRes realPath st o
  | .write _ => (st, [])
  | .resize _ _ => (st, [])
  | .kill => ({ st with ptyProcess := none }, [])
  | .setBoundary path =>
      match path with
      | some p =>
          if p ≠ [] ∧ fsIsDir p then
            ({ st with vaultBoundary := some (resolvePosix st.processCwd p) },
             [.boundarySet (resolvePosix st.processCwd p)])
          else (st, [])
      | none => (st, [])

end PtyHost

/-! ## Newline-delimited JSON framing (host stdin handler and
`PtyBridge.setupEventHandlers` stdout handler — both sides use the same
buffer-append / split / keep-last-fragment / parse-per-line loop). -/

namespace Framing

open Js

/-- One `data` callback step: append the chunk to the buffer, split on
newline, keep the final (possibly incomplete) fragment as the new buffer,
hand back the complete lines. -/
def processChunk (buffer chunk : Str) : Str × List Str :=
  let lines := splitOnChar '\n' (buffer ++ chunk)
  (lines.getLastD [], lines.dropLast)

/-- Per-line handling of complete lines: blank lines (empty after `trim`)
are skipped; each remaining line is parsed independently and a line that
fails to parse is dropped (logged in the original) without affecting the
others or the stream. -/
def parseLines {M : Type} (parse : Str → Option M) (lines : List Str) : List M :=
  lines.filterMap fun line => if trim line = [] then none else parse line

end Framing

/-! ## Specification-side predicates (written from the spec's words, for
the refinement claims C2 and C3) -/

namespace SpecSide

open Js NodePath PtyHost

/-- C2's containment relation as the claim states it: the resolved working
directory is equal to, or nested under, the boundary, its parent or its
grandparent directory, case-insensitively on resolved absolute paths.
"Nested under" is directory ancestry: the ancestor's component list is a
prefix of the target's (equality included). -/
def specContained (processCwd target b : Str) : Prop :=
  (resolveComps processCwd b).map toLower
      <+: (resolveComps processCwd target).map toLower
  ∨ ((resolveComps processCwd b).map toLower).dropLast
      <+: (resolveComps processCwd target).map toLower
  ∨ ((resolveComps processCwd b).map toLower).dropLast.dropLast
      <+: (resolveComps processCwd target).map toLower

/-- Equal, or nested strictly under a non-root directory: the corrected
reading of "equal to or nested under" that matches the host's
prefix-plus-separator comparison (nothing is nested under the filesystem
root `/`, whose rendered prefix `//` no resolved path starts with). -/
def eqOrNestedNonRoot (ct cd : List Str) : Prop :=
  ct = cd ∨ (cd ≠ [] ∧ cd <+: ct)

/-- The amended C2 containment relation: as `specContained`, except that a
path strictly below the root does not count as nested under `/`. -/
def specContainedAmended (processCwd target b : Str) : Prop :=
  eqOrNestedNonRoot ((resolveComps processCwd target).map toLower)
      ((resolveComps processCwd b).map toLower)
  ∨ eqOrNestedNonRoot ((resolveComps processCwd target).map toLower)
      (((resolveComps processCwd b).map toLower).dropLast)
  ∨ eqOrNestedNonRoot ((resolveComps processCwd target).map toLower)
      (((resolveComps processCwd b).map toLower).dropLast.dropLast)

/-- C3's whitelist-match relation as the claim states it: the shell string
matches some allow-list entry case-insensitively by full string, by
path-suffix, or by bare name (shared basename). -/
def specShellMatches (pf : Platform) (shell : Str) : Prop :=
  ∃ allowed ∈ SHELL_WHITELIST pf,
    toLower (trim shell) = toLower allowed
    ∨ (sep pf :: toLower allowed) <:+ toLower (trim shell)
    ∨ basename pf (toLower (trim shell)) = basename pf (toLower allowed)

instance (processCwd target b : Str) : Decidable (specContained processCwd target b) := by
  unfold specContained
  infer_instance

instance (ct cd : List Str) : Decidable (eqOrNestedNonRoot ct cd) := by
  unfold eqOrNestedNonRoot
  infer_instance

instance (processCwd target b : Str) :
    Decidable (specContainedAmended processCwd target b) := by
  unfold specContainedAmended
  infer_instance

instance (pf : Platform) (shell : Str) : Decidable (specShellMatches pf shell) := by
  unfold specShellMatches
  infer_instance

end SpecSide

/-! ### Lemmas about the layout tree -/

namespace PNode

theorem find_lt_of_allIdsLt {k j : Nat} {n : PNode} (h : allIdsLt k n = true)
    (hk : k ≤ j) : findNode j n = none := by
  induction n with
  | pane id inst =>
      simp only [allIdsLt, decide_eq_true_eq] at h
      simp only [findNode, if_neg (show ¬ id = j by omega)]
  | split id d l r a b ihl ihr =>
      simp only [allIdsLt, Bool.and_eq_true, decide_eq_true_eq] at h
      obtain ⟨⟨hid, hl⟩, hr⟩ := h
      simp only [findNode, if_neg (show ¬ id = j by omega), ihl hl, ihr hr]

theorem isPaneWithId_eq_false_of_allIdsLt {k : Nat} {n : PNode}
    (h : allIdsLt k n = true) : isPaneWithId k n = false := by
  cases n with
  | pane id inst =>
      simp only [allIdsLt, decide_eq_true_eq] at h
      simp only [isPaneWithId, decide_eq_false_iff_not]
      omega
  | split id d l r a b => simp [isPaneWithId]

theorem removePane_eq_none_of_allIdsLt {k : Nat} {n : PNode}
    (h : allIdsLt k n = true) : removePane k n = none := by
  induction n with
  | pane id inst => simp [removePane]
  | split id d l r a b ihl ihr =>
      simp only [allIdsLt, Bool.and_eq_true, decide_eq_true_eq] at h
      obtain ⟨⟨hid, hl⟩, hr⟩ := h
      simp only [removePane, isPaneWithId_eq_false_of_allIdsLt hl,
        isPaneWithId_eq_false_of_allIdsLt hr, ihl hl, ihr hr, Bool.false_eq_true,
        if_false]

theorem replaceFirst_of_find_none {p : Nat} {repl : PNode} {n : PNode}
    (h : findNode p n = none) : replaceFirst p repl n = (n, false) := by
  induction n with
  | pane id inst =>
      simp only [findNode] at h
      by_cases hid : id = p
      · simp [hid] at h
      · simp [replaceFirst, hid]
  | split id d l r a b ihl ihr =>
      simp only [findNode] at h
      by_cases hid : id = p
      · simp [hid] at h
      · simp only [if_neg hid] at h
        rcases hfl : findNode p l with _ | m
        · simp only [hfl] at h
          simp only [replaceFirst, if_neg hid, ihl hfl, ihr h]
        · simp [hfl] at h

theorem nodeId_eq_of_find {i : Nat} {n m : PNode} (h : findNode i n = some m) :
    m.nodeId = i := by
  induction n generalizing m with
  | pane id inst =>
      simp only [findNode] at h
      by_cases hid : id = i
      · simp only [if_pos hid] at h
        cases h; simp [nodeId, hid]
      · simp [hid] at h
  | split id d l r a b ihl ihr =>
      simp only [findNode] at h
      by_cases hid : id = i
      · simp only [if_pos hid] at h
        cases h; simp [nodeId, hid]
      · simp only [if_neg hid] at h
        rcases hfl : findNode i l with _ | m'
        · simp only [hfl] at h
          exact ihr h
        · simp only [hfl] at h
          cases h; exact ihl hfl

theorem find_implies_replace_flag (repl : PNode) {p : Nat} {n : PNode}
    (h : (findNode p n).isSome) : (replaceFirst p repl n).2 = true := by
  induction n with
  | pane id inst =>
      by_cases hid : id = p
      · simp [replaceFirst, hid]
      · simp [findNode, hid] at h
  | split id d l r a b ihl ihr =>
      by_cases hid : id = p
      · simp [replaceFirst, hid]
      · simp only [findNode, if_neg hid] at h
        rcases hfl : findNode p l with _ | m
        · simp only [hfl] at h
          rcases hrep : replaceFirst p repl r with ⟨r', fr⟩
          have hfr := ihr h
          rw [hrep] at hfr
          simp only [replaceFirst, if_neg hid, replaceFirst_of_find_none hfl, hrep]
          simpa using hfr
        · rcases hrep : replaceFirst p repl l with ⟨l', fl⟩
          have hflag := ihl (by simp [hfl])
          rw [hrep] at hflag
          simp only at hflag
          subst hflag
          simp [replaceFirst, if_neg hid, hrep]

/-- `replaceFirst` never turns the tree into the bare pane `k` when the
replacement is not that pane and all original ids are below `k`. -/
theorem isPaneWithId_replaceFirst_eq_false (repl : PNode) {p k : Nat}
    {n : PNode} (hrepl : isPaneWithId k repl = false)
    (hk : allIdsLt k n = true) :
    isPaneWithId k ((replaceFirst p repl n).1) = false := by
  cases n with
  | pane id inst =>
      simp only [replaceFirst]
      by_cases h2 : id = p
      · simpa [h2] using hrepl
      · simp only [if_neg h2]
        exact isPaneWithId_eq_false_of_allIdsLt hk
  | split id d l r a b =>
      simp only [replaceFirst]
      by_cases h2 : id = p
      · simpa [h2] using hrepl
      · simp only [if_neg h2]
        rcases h3 : replaceFirst p repl l with ⟨l', fl⟩
        cases fl
        · rcases h4 : replaceFirst p repl r with ⟨r', fr⟩
          simp [isPaneWithId]
        · simp [isPaneWithId]

/-- Core algebra behind split-then-close: replacing the pane `p` by the new
split node and then closing the fresh pane (id `k`, fresh by `allIdsLt`)
restores the original tree and reports the original pane as the promoted
first pane. -/
theorem removePane_replaceFirst {k p : Nat} {pinst : Option String}
    (newInst : Option String) (dir : SplitDirection) {n : PNode}
    (hk : allIdsLt k n = true)
    (hfind : findNode p n = some (.pane p pinst)) :
    removePane k ((replaceFirst p
        (.split (k + 1) dir (.pane p pinst) (.pane k newInst) 50 50) n).1) =
      some (n, newInst, p) := by
  induction n with
  | pane id inst =>
      simp only [findNode] at hfind
      by_cases hid : id = p
      · subst hid
        simp only [if_pos rfl] at hfind
        have hinst : inst = pinst := by cases hfind; rfl
        subst hinst
        simp only [allIdsLt, decide_eq_true_eq] at hk
        simp only [replaceFirst, if_pos rfl]
        simp [removePane, isPaneWithId, firstPaneId, paneInstance,
          show ¬ id = k by omega]
      · simp [hid] at hfind
  | split id d l r a b ihl ihr =>
      simp only [allIdsLt, Bool.and_eq_true, decide_eq_true_eq] at hk
      obtain ⟨⟨hid', hkl⟩, hkr⟩ := hk
      simp only [findNode] at hfind
      by_cases hid : id = p
      · simp only [if_pos hid] at hfind
        cases hfind
      · simp only [if_neg hid] at hfind
        rcases hfl : findNode p l with _ | m
        · -- the pane sits in the right child
          simp only [hfl] at hfind
          rcases hrep : replaceFirst p
              (.split (k + 1) dir (.pane p pinst) (.pane k newInst) 50 50) r with ⟨r', fr⟩
          have hrr := ihr hkr hfind
          rw [hrep] at hrr
          simp only at hrr
          have hpl : isPaneWithId k l = false := isPaneWithId_eq_false_of_allIdsLt hkl
          have hrl : removePane k l = none := removePane_eq_none_of_allIdsLt hkl
          have hpr' : isPaneWithId k r' = false := by
            have h5 := isPaneWithId_replaceFirst_eq_false
              (.split (k + 1) dir (.pane p pinst) (.pane k newInst) 50 50)
              (p := p) (by simp [isPaneWithId]) hkr
            rwa [hrep] at h5
          simp only [replaceFirst, if_neg hid, replaceFirst_of_find_none hfl, hrep]
          simp [removePane, hpl, hrl, hpr', hrr]
        · -- the pane sits in the left child
          simp only [hfl] at hfind
          cases hfind
          have hll := ihl hkl hfl
          rcases hrep : replaceFirst p
              (.split (k + 1) dir (.pane p pinst) (.pane k newInst) 50 50) l with ⟨l', fl⟩
          rw [hrep] at hll
          simp only at hll
          have hflag : fl = true := by
            have h2 := find_implies_replace_flag
              (.split (k + 1) dir (.pane p pinst) (.pane k newInst) 50 50)
              (p := p) (n := l) (by simp [hfl])
            rw [hrep] at h2
            exact h2
          subst hflag
          have hpl' : isPaneWithId k l' = false := by
            have h5 := isPaneWithId_replaceFirst_eq_false
              (.split (k + 1) dir (.pane p pinst) (.pane k newInst) 50 50)
              (p := p) (by simp [isPaneWithId]) hkl
            rwa [hrep] at h5
          simp only [replaceFirst, if_neg hid, hrep]
          simp [removePane, hpl', hll]

/-- `findNode` of the fresh pane id after the split replacement. -/
theorem find_k_replaceFirst {k p : Nat} {pinst : Option String}
    (newInst : Option String) (dir : SplitDirection) {n : PNode}
    (hk : allIdsLt k n = true)
    (hfind : findNode p n = some (.pane p pinst)) :
    findNode k ((replaceFirst p
        (.split (k + 1) dir (.pane p pinst) (.pane k newInst) 50 50) n).1) =
      some (.pane k newInst) := by
  induction n with
  | pane id inst =>
      simp only [findNode] at hfind
      by_cases hid : id = p
      · subst hid
        simp only [if_pos rfl] at hfind
        have hinst : inst = pinst := by cases hfind; rfl
        subst hinst
        simp only [allIdsLt, decide_eq_true_eq] at hk
        simp only [replaceFirst, if_pos rfl]
        simp [findNode, show ¬ k + 1 = k by omega, show ¬ id = k by omega]
      · simp [hid] at hfind
  | split id d l r a b ihl ihr =>
      simp only [allIdsLt, Bool.and_eq_true, decide_eq_true_eq] at hk
      obtain ⟨⟨hid', hkl⟩, hkr⟩ := hk
      simp only [findNode] at hfind
      by_cases hid : id = p
      · simp only [if_pos hid] at hfind
        cases hfind
      · simp only [if_neg hid] at hfind
        rcases hfl : findNode p l with _ | m
        · simp only [hfl] at hfind
          rcases hrep : replaceFirst p
              (.split (k + 1) dir (.pane p pinst) (.pane k newInst) 50 50) r with ⟨r', fr⟩
          have hrr := ihr hkr hfind
          rw [hrep] at hrr
          simp only at hrr
          simp only [replaceFirst, if_neg hid, replaceFirst_of_find_none hfl, hrep]
          simp only [findNode, if_neg (show ¬ id = k by omega),
            find_lt_of_allIdsLt hkl (Nat.le_refl k), hrr]
        · simp only [hfl] at hfind
          cases hfind
          have hll := ihl hkl hfl
          rcases hrep : replaceFirst p
              (.split (k + 1) dir (.pane p pinst) (.pane k newInst) 50 50) l with ⟨l', fl⟩
          rw [hrep] at hll
          simp only at hll
          have hflag : fl = true := by
            have h2 := find_implies_replace_flag
              (.split (k + 1) dir (.pane p pinst) (.pane k newInst) 50 50)
              (p := p) (n := l) (by simp [hfl])
            rw [hrep] at h2
            exact h2
          subst hflag
          simp only [replaceFirst, if_neg hid, hrep]
          simp only [findNode, if_neg (show ¬ id = k by omega), hll]

/-- The root id after the split replacement is never the fresh pane id. -/
theorem nodeId_replaceFirst_ne {k p : Nat} {pinst : Option String}
    (newInst : Option String) (dir : SplitDirection) {n : PNode}
    (hk : allIdsLt k n = true)
    (hfind : findNode p n = some (.pane p pinst)) :
    ((replaceFirst p
        (.split (k + 1) dir (.pane p pinst) (.pane k newInst) 50 50) n).1).nodeId ≠ k := by
  cases n with
  | pane id inst =>
      simp only [findNode] at hfind
      by_cases hid : id = p
      · simp only [replaceFirst, if_pos hid]
        simp [nodeId]
      · simp [hid] at hfind
  | split id d l r a b =>
      simp only [allIdsLt, Bool.and_eq_true, decide_eq_true_eq] at hk
      obtain ⟨⟨hid', hkl⟩, hkr⟩ := hk
      simp only [replaceFirst]
      by_cases hid : id = p
      · simp [hid, nodeId]
      · simp only [if_neg hid]
        rcases h3 : replaceFirst p
            (.split (k + 1) dir (.pane p pinst) (.pane k newInst) 50 50) l with ⟨l', fl⟩
        cases fl
        · rcases h4 : replaceFirst p
              (.split (k + 1) dir (.pane p pinst) (.pane k newInst) 50 50) r with ⟨r', fr⟩
          simp only [nodeId]
          omega
        · simp only [nodeId]
          omega

/-- `findNode` after `setSizes`: the first preorder node with the target id
keeps its position; if it is a split its sizes are replaced, otherwise
nothing changes. -/
theorem find_setSizes (i : Nat) (a b : ℚ) (n : PNode) :
    findNode i ((setSizes i a b n).1) =
      (match findNode i n with
       | some (.split id d l r _ _) => some (.split id d l r a b)
       | x => x) ∧ (setSizes i a b n).2 = (findNode i n).isSome := by
  induction n with
  | pane id inst =>
      by_cases hid : id = i
      · simp [setSizes, findNode, hid]
      · simp [setSizes, findNode, hid]
  | split id d l r s1 s2 ihl ihr =>
      by_cases hid : id = i
      · simp [setSizes, findNode, hid]
      · obtain ⟨ihl1, ihl2⟩ := ihl
        obtain ⟨ihr1, ihr2⟩ := ihr
        rcases hsl : setSizes i a b l with ⟨l', fl⟩
        rw [hsl] at ihl1 ihl2
        simp only at ihl1 ihl2
        cases fl
        · rcases hsr : setSizes i a b r with ⟨r', fr⟩
          rw [hsr] at ihr1 ihr2
          simp only at ihr1 ihr2
          have hfl : findNode i l = none := by
            cases h : findNode i l
            · rfl
            · rw [h] at ihl2; simp at ihl2
          rw [hfl] at ihl1
          simp only at ihl1
          constructor
          · simp only [setSizes, if_neg hid, hsl, hsr, findNode, if_neg hid, ihl1, hfl, ihr1]
          · simp only [setSizes, if_neg hid, hsl, hsr, findNode, if_neg hid, hfl, ihr2]
        · have hfl : ∃ m, findNode i l = some m := by
            cases h : findNode i l
            · rw [h] at ihl2; simp at ihl2
            · exact ⟨_, rfl⟩
          obtain ⟨m, hm⟩ := hfl
          rw [hm] at ihl1
          constructor
          · simp only [setSizes, if_neg hid, hsl, findNode, if_neg hid, hm]
            rcases m with ⟨mid, minst⟩ | ⟨mid, md, ml, mr, ms1, ms2⟩
            · simp only at ihl1
              rw [ihl1]
            · simp only at ihl1
              rw [ihl1]
          · simp [setSizes, if_neg hid, hsl, findNode, hm]

end PNode

/-! ### Claim theorems about the layout tree -/

/-- C6: closing the sole root pane of a single-pane layout always fails
(returns no removed session reference) and leaves the manager state —
root node, active pane, pane instance assignment — completely unchanged. -/
theorem close_sole_root_pane_fails (i : Nat) (inst : Option String) (a k : Nat) :
    ManagerState.closePane ⟨⟨.pane i inst, a⟩, k⟩ i = (⟨⟨.pane i inst, a⟩, k⟩, none) := by
  simp [ManagerState.closePane, PNode.findNode, PNode.nodeId]

/-- C5 (counterexample): `updateSplitSizes` stores the given pair verbatim,
so passing sizes (0, 100) leaves the targeted split with a size value
outside [10, 90] — the claim fails for arbitrary size pairs. -/
theorem resize_unclamped_counterexample :
    (PNode.findNode 3
        ((ManagerState.updateSplitSizes
          ⟨⟨.split 3 .horizontal (.pane 1 none) (.pane 2 none) 50 50, 1⟩, 4⟩
          3 0 100)).layout.root
      = some (.split 3 .horizontal (.pane 1 none) (.pane 2 none) 0 100))
    ∧ ¬ ((10 : ℚ) ≤ 0 ∧ (0 : ℚ) ≤ 90 ∧ (10 : ℚ) ≤ 100 ∧ (100 : ℚ) ≤ 90 ∧
          (0 : ℚ) + 100 = 100) := by
  refine ⟨by decide, ?_⟩
  intro h
  exact absurd h.1 (by norm_num)

/-- C5 (amended): if the caller passes sizes already clamped to [10, 90] and
summing to 100 — as the resize-drag handlers do — then after
`updateSplitSizes` the targeted split's two size values both lie in [10, 90]
and sum to 100 (the tree itself stores the pair verbatim and does not
clamp). -/
theorem resize_clamped_invariant (st : ManagerState) (i : Nat) (a b : ℚ)
    (sid : Nat) (d : SplitDirection) (l r : PNode) (s1 s2 : ℚ)
    (ha1 : 10 ≤ a) (ha2 : a ≤ 90) (hb1 : 10 ≤ b) (hb2 : b ≤ 90) (hab : a + b = 100)
    (hfind : PNode.findNode i st.layout.root = some (.split sid d l r s1 s2)) :
    PNode.findNode i (st.updateSplitSizes i a b).layout.root
      = some (.split sid d l r a b)
    ∧ (10 ≤ a ∧ a ≤ 90 ∧ 10 ≤ b ∧ b ≤ 90 ∧ a + b = 100) := by
  have h := (PNode.find_setSizes i a b st.layout.root).1
  rw [hfind] at h
  exact ⟨by simpa [ManagerState.updateSplitSizes] using h, ha1, ha2, hb1, hb2, hab⟩

/-- Witness for the amended C5 theorem at a concrete two-pane layout with
sizes (40, 60). -/
theorem resize_clamped_invariant_witness :
    PNode.findNode 3
        ((ManagerState.updateSplitSizes
          ⟨⟨.split 3 .horizontal (.pane 1 none) (.pane 2 none) 50 50, 1⟩, 4⟩
          3 40 60)).layout.root
      = some (.split 3 .horizontal (.pane 1 none) (.pane 2 none) 40 60)
    ∧ ((10 : ℚ) ≤ 40 ∧ (40 : ℚ) ≤ 90 ∧ (10 : ℚ) ≤ 60 ∧ (60 : ℚ) ≤ 90 ∧
        (40 : ℚ) + 60 = 100) :=
  resize_clamped_invariant
    ⟨⟨.split 3 .horizontal (.pane 1 none) (.pane 2 none) 50 50, 1⟩, 4⟩
    3 40 60 3 .horizontal (.pane 1 none) (.pane 2 none) 50 50
    (by norm_num) (by norm_num) (by norm_num) (by norm_num) (by norm_num) (by decide)

/-- C7: on a well-formed layout (all ids below `nextId`), splitting an
existing pane `p` and then immediately closing the newly created pane
returns the tree to exactly its previous shape (literally the same root,
hence the same splits, panes and session references), the active pane
resolves to the original pane `p`, and the close returns the session
reference that was handed to the split. -/
theorem split_then_close_restores (st : ManagerState) (p : Nat)
    (dir : SplitDirection) (instName : String) (pinst : Option String)
    (hwf : PNode.allIdsLt st.nextId st.layout.root = true)
    (hfind : PNode.findNode p st.layout.root = some (.pane p pinst)) :
    (st.splitPane p dir instName).2 = some st.nextId
    ∧ ((st.splitPane p dir instName).1.closePane st.nextId).1.layout.root
        = st.layout.root
    ∧ ((st.splitPane p dir instName).1.closePane st.nextId).1.layout.activePane = p
    ∧ ((st.splitPane p dir instName).1.closePane st.nextId).2
        = some (if instName = "" then none else some instName) := by
  have h1 := PNode.find_k_replaceFirst
    (if instName = "" then none else some instName) dir hwf hfind
  have h2 := PNode.nodeId_replaceFirst_ne
    (if instName = "" then none else some instName) dir hwf hfind
  have h3 := PNode.removePane_replaceFirst
    (if instName = "" then none else some instName) dir hwf hfind
  refine ⟨by simp [ManagerState.splitPane, hfind], ?_, ?_, ?_⟩ <;>
    simp [ManagerState.splitPane, hfind, ManagerState.closePane, h1, h2, h3]

/-- Witness for the C7 theorem: split the initial single-pane layout and
close the fresh pane. -/
theorem split_then_close_restores_witness :
    PNode.allIdsLt ManagerState.init.nextId ManagerState.init.layout.root = true
    ∧ PNode.findNode 1 ManagerState.init.layout.root = some (.pane 1 none)
    ∧ ((ManagerState.init.splitPane 1 .horizontal "A").2 = some ManagerState.init.nextId
        ∧ ((ManagerState.init.splitPane 1 .horizontal "A").1.closePane
              ManagerState.init.nextId).1.layout.root = ManagerState.init.layout.root
        ∧ ((ManagerState.init.splitPane 1 .horizontal "A").1.closePane
              ManagerState.init.nextId).1.layout.activePane = 1
        ∧ ((ManagerState.init.splitPane 1 .horizontal "A").1.closePane
              ManagerState.init.nextId).2
            = some (if ("A" : String) = "" then none else some "A")) :=
  ⟨by decide, by decide,
    split_then_close_restores ManagerState.init 1 .horizontal "A" none
      (by decide) (by decide)⟩

/-! ### Lemmas and claim theorem for the session registry -/

namespace TerminalManagerState

theorem earliest_le {m : TerminalInstance} {l : List TerminalInstance}
    (h : IsEarliestCreated m l) : ∀ y ∈ l, m.createdAt ≤ y.createdAt := by
  obtain ⟨pre, post, rfl, hpre, hpost⟩ := h
  intro y hy
  rcases List.mem_append.1 hy with hy | hy
  · exact le_of_lt (hpre y hy)
  · rcases List.mem_cons.1 hy with rfl | hy
    · exact le_refl _
    · exact hpost y hy

/-- The head of the stable creation-time sort is exactly the spec's
"earliest-created session by creation order". -/
theorem sortByCreated_head {l : List TerminalInstance} (h : l ≠ []) :
    ∃ m, (sortByCreated l).head? = some m ∧ IsEarliestCreated m l := by
  induction l with
  | nil => exact absurd rfl h
  | cons x xs ih =>
      rcases hxs : xs with _ | ⟨z, zs⟩
      · refine ⟨x, rfl, [], [], rfl, ?_, ?_⟩ <;> simp
      · rw [← hxs]
        have hxs' : xs ≠ [] := by rw [hxs]; exact List.cons_ne_nil _ _
        obtain ⟨m, hm, hme⟩ := ih hxs'
        obtain ⟨rest, hrest⟩ : ∃ rest, sortByCreated xs = m :: rest := by
          cases hs : sortByCreated xs with
          | nil => rw [hs] at hm; cases hm
          | cons a as =>
              rw [hs] at hm
              cases hm
              exact ⟨as, rfl⟩
        by_cases hlt : m.createdAt < x.createdAt
        · refine ⟨m, ?_, ?_⟩
          · simp only [sortByCreated, hrest, insertByCreated, if_pos hlt,
              List.head?_cons]
          · obtain ⟨pre, post, hdec, hpre, hpost⟩ := hme
            refine ⟨x :: pre, post, by simp [hdec], ?_, hpost⟩
            intro y hy
            rcases List.mem_cons.1 hy with rfl | hy
            · exact hlt
            · exact hpre y hy
        · refine ⟨x, ?_, [], xs, rfl, by simp, ?_⟩
          · simp only [sortByCreated, hrest, insertByCreated, if_neg hlt,
              List.head?_cons]
          · intro y hy
            exact le_trans (le_of_not_lt hlt) (earliest_le hme y hy)

theorem filter_id_length_le_one {l : List TerminalInstance}
    (h : (l.map (fun i => i.id)).Nodup) (o : Option String) :
    (l.filter (fun i => some i.id = o)).length ≤ 1 := by
  induction l with
  | nil => simp
  | cons x xs ih =>
      simp only [List.map_cons, List.nodup_cons] at h
      obtain ⟨hx, hxs⟩ := h
      by_cases hxo : some x.id = o
      · have hrest : xs.filter (fun i => some i.id = o) = [] := by
          apply List.filter_eq_nil_iff.2
          intro y hy
          simp only [decide_eq_true_eq]
          intro hcon
          have hyx : y.id = x.id := by
            have h2 : some y.id = some x.id := by rw [hcon, ← hxo]
            injection h2
          exact hx (by rw [← hyx]; exact List.mem_map_of_mem _ hy)
        simp [List.filter_cons, hxo, hrest]
      · simpa [List.filter_cons, hxo] using ih hxs

theorem nodup_ids_filter {l : List TerminalInstance}
    (h : (l.map (fun i => i.id)).Nodup) (p : TerminalInstance → Bool) :
    ((l.filter p).map (fun i => i.id)).Nodup :=
  h.sublist (List.Sublist.map _ (List.filter_sublist l))

end TerminalManagerState

/-- C8: on an id-unique registry, (a) the active id matches at most one
session, before and after any removal, and (b) removing the currently
active session reassigns activity to the earliest-created remaining session
by creation order, or to none when no session remains. -/
theorem remove_active_reassigns_earliest (st : TerminalManagerState)
    (rid : String)
    (hnd : (st.instances.map (fun i => i.id)).Nodup) :
    st.activeCount ≤ 1
    ∧ (st.removeInstance rid).1.activeCount ≤ 1
    ∧ (st.activeInstanceId = some rid →
        st.instances.any (fun i => i.id = rid) = true →
        ((st.remainingAfter rid = [] →
            (st.removeInstance rid).1.activeInstanceId = none)
         ∧ (st.remainingAfter rid ≠ [] →
            ∃ m, IsEarliestCreated m (st.remainingAfter rid)
              ∧ (st.removeInstance rid).1.activeInstanceId = some m.id))) := by
  refine ⟨TerminalManagerState.filter_id_length_le_one hnd _, ?_, ?_⟩
  · by_cases hany : st.instances.any (fun i => i.id = rid)
    · simp only [TerminalManagerState.removeInstance, if_pos hany]
      exact TerminalManagerState.filter_id_length_le_one
        (TerminalManagerState.nodup_ids_filter hnd _) _
    · simp only [TerminalManagerState.removeInstance, if_neg hany]
      exact TerminalManagerState.filter_id_length_le_one hnd _
  · intro hact hany
    constructor
    · intro hempty
      simp [TerminalManagerState.removeInstance, hany, hact, hempty,
        TerminalManagerState.sortByCreated]
    · intro hne
      obtain ⟨m, hm, hme⟩ := TerminalManagerState.sortByCreated_head hne
      exact ⟨m, hme, by
        simp [TerminalManagerState.removeInstance, hany, hact, hm]⟩

/-- Witness for the C8 theorem on `twoSessionRegistry`: removing the active
session `a` reassigns activity to `b`, the earliest-created remaining
session. -/
theorem remove_active_reassigns_earliest_witness :
    ((twoSessionRegistry.instances.map (fun i => i.id)).Nodup)
    ∧ (twoSessionRegistry.activeCount ≤ 1
      ∧ (twoSessionRegistry.removeInstance "a").1.activeCount ≤ 1
      ∧ (twoSessionRegistry.activeInstanceId = some "a" →
          twoSessionRegistry.instances.any (fun i => i.id = "a") = true →
          ((twoSessionRegistry.remainingAfter "a" = [] →
              (twoSessionRegistry.removeInstance "a").1.activeInstanceId = none)
           ∧ (twoSessionRegistry.remainingAfter "a" ≠ [] →
              ∃ m, IsEarliestCreated m (twoSessionRegistry.remainingAfter "a")
                ∧ (twoSessionRegistry.removeInstance "a").1.activeInstanceId
                    = some m.id)))) :=
  ⟨by decide, remove_active_reassigns_earliest twoSessionRegistry "a" (by decide)⟩

/-! ### Lemmas about the framing -/

namespace Js

theorem splitOnPred_of_forall_false {p : Char → Bool} {s : Str}
    (h : ∀ x ∈ s, p x = false) : splitOnPred p s = [s] := by
  induction s with
  | nil => rfl
  | cons x xs ih =>
      have hx : p x = false := h x (List.mem_cons_self x xs)
      have hxs := ih fun y hy => h y (List.mem_cons_of_mem x hy)
      simp [splitOnPred, hxs, hx]

theorem splitOnPred_append_sep {p : Char → Bool} {s : Str} {c : Char}
    (h : ∀ x ∈ s, p x = false) (hc : p c = true) :
    splitOnPred p (s ++ [c]) = [s, []] := by
  induction s with
  | nil => simp [splitOnPred, hc]
  | cons x xs ih =>
      have hx : p x = false := h x (List.mem_cons_self x xs)
      have hxs := ih fun y hy => h y (List.mem_cons_of_mem x hy)
      simp [splitOnPred, hxs, hx]

theorem splitOnChar_of_not_mem {c : Char} {s : Str} (h : c ∉ s) :
    splitOnChar c s = [s] :=
  splitOnPred_of_forall_false fun x hx =>
    decide_eq_false fun heq => h (heq ▸ hx)

theorem splitOnChar_append_sep {c : Char} {s : Str} (h : c ∉ s) :
    splitOnChar c (s ++ [c]) = [s, []] :=
  splitOnPred_append_sep
    (fun x hx => decide_eq_false fun heq => h (heq ▸ hx))
    (by simp)

end Js

/-! ### Lemmas about the path model (for the C2 containment claim) -/

namespace Js

theorem lowerChar_eq_slash {c : Char} (h : lowerChar c = '/') : c = '/' := by
  unfold lowerChar at h
  split at h <;> first | exact absurd h (by decide) | exact h

theorem lowerChar_eq_dot {c : Char} (h : lowerChar c = '.') : c = '.' := by
  unfold lowerChar at h
  split at h <;> first | exact absurd h (by decide) | exact h

theorem splitOnPred_ne_nil (p : Char → Bool) (s : Str) : splitOnPred p s ≠ [] := by
  cases s with
  | nil => simp [splitOnPred]
  | cons x xs =>
      simp only [splitOnPred]
      rcases h : splitOnPred p xs with _ | ⟨y, ys⟩
      · simp
      · dsimp only
        split <;> simp

theorem mem_splitOnPred {p : Char → Bool} {s : Str} :
    ∀ t ∈ splitOnPred p s, ∀ x ∈ t, p x = false := by
  induction s with
  | nil =>
      intro t ht
      simp only [splitOnPred, List.mem_singleton] at ht
      subst ht
      simp
  | cons x xs ih =>
      intro t ht
      rcases hs : splitOnPred p xs with _ | ⟨y, ys⟩
      · exact absurd hs (splitOnPred_ne_nil p xs)
      · simp only [splitOnPred, hs] at ht
        by_cases hx : p x = true
        · rw [if_pos hx] at ht
          rcases List.mem_cons.1 ht with rfl | ht
          · simp
          · exact ih t (by rw [hs]; exact ht)
        · rw [if_neg hx] at ht
          rcases List.mem_cons.1 ht with rfl | ht
          · intro z hz
            rcases List.mem_cons.1 hz with rfl | hz
            · exact Bool.eq_false_iff.2 hx
            · exact ih y (by rw [hs]; exact List.mem_cons_self y ys) z hz
          · exact ih t (by rw [hs]; exact List.mem_cons_of_mem y ht)

theorem splitOnPred_cons_sep {p : Char → Bool} {c : Char} (hc : p c = true)
    (s : Str) : splitOnPred p (c :: s) = [] :: splitOnPred p s := by
  simp only [splitOnPred]
  rcases h : splitOnPred p s with _ | ⟨y, ys⟩
  · exact absurd h (splitOnPred_ne_nil p s)
  · simp [hc]

theorem splitOnPred_sep_mid {p : Char → Bool} {s t : Str} {c : Char}
    (hs : ∀ x ∈ s, p x = false) (hc : p c = true) :
    splitOnPred p (s ++ c :: t) = s :: splitOnPred p t := by
  induction s with
  | nil =>
      rw [List.nil_append, splitOnPred_cons_sep hc]
  | cons x xs ih =>
      have hx : p x = false := hs x (List.mem_cons_self x xs)
      have ih' := ih fun y hy => hs y (List.mem_cons_of_mem x hy)
      simp only [List.cons_append, splitOnPred, hx, List.append_eq]
      rw [ih']
      simp

theorem splitOnChar_cons_sep (c : Char) (s : Str) :
    splitOnChar c (c :: s) = [] :: splitOnChar c s :=
  splitOnPred_cons_sep (by simp) s

theorem splitOnChar_sep_mid {s : Str} {c : Char} (hs : c ∉ s) (t : Str) :
    splitOnChar c (s ++ c :: t) = s :: splitOnChar c t :=
  splitOnPred_sep_mid
    (fun x hx => decide_eq_false fun heq => hs (heq ▸ hx)) (by simp)

end Js

/-- Two lists ending in the same separator-free prefix position: if
`a ++ s :: u = b ++ s :: v` and `s` occurs in neither `a` nor `b`, the
parts agree. -/
theorem append_sep_inj {α : Type} {a b u v : List α} {s : α}
    (ha : s ∉ a) (hb : s ∉ b) (h : a ++ s :: u = b ++ s :: v) :
    a = b ∧ u = v := by
  induction a generalizing b with
  | nil =>
      cases b with
      | nil => simpa using h
      | cons y b' =>
          simp only [List.nil_append, List.cons_append, List.cons.injEq] at h
          exact absurd (h.1 ▸ List.mem_cons_self y b') hb
  | cons x a' ih =>
      cases b with
      | nil =>
          simp only [List.cons_append, List.nil_append, List.cons.injEq] at h
          exact absurd (h.1 ▸ List.mem_cons_self x a') ha
      | cons y b' =>
          simp only [List.cons_append, List.cons.injEq] at h
          obtain ⟨rfl, h2⟩ := h
          have ha' : s ∉ a' := fun hx => ha (List.mem_cons_of_mem _ hx)
          have hb' : s ∉ b' := fun hx => hb (List.mem_cons_of_mem _ hx)
          obtain ⟨rfl, rfl⟩ := ih ha' hb' h2
          exact ⟨rfl, rfl⟩

namespace NodePath

theorem goodComp_toLower {c : Str} (h : GoodComp c) : GoodComp (Js.toLower c) := by
  obtain ⟨h1, h2, h3, h4⟩ := h
  refine ⟨?_, ?_, ?_, ?_⟩
  · simpa [Js.toLower] using h1
  · intro hc
    apply h2
    cases c with
    | nil => simp [Js.toLower] at hc
    | cons x t =>
        simp only [Js.toLower, List.map_cons, List.cons.injEq,
          List.map_eq_nil_iff] at hc
        obtain ⟨hx, rfl⟩ := hc
        rw [Js.lowerChar_eq_dot hx]
  · intro hc
    apply h3
    cases c with
    | nil => simp [Js.toLower] at hc
    | cons x t =>
        cases t with
        | nil => simp [Js.toLower] at hc
        | cons y u =>
            simp only [Js.toLower, List.map_cons, List.cons.injEq,
              List.map_eq_nil_iff] at hc
            obtain ⟨hx, hy, rfl⟩ := hc
            rw [Js.lowerChar_eq_dot hx, Js.lowerChar_eq_dot hy]
  · intro hmem
    obtain ⟨x, hx, hlx⟩ := List.mem_map.1 hmem
    exact h4 (Js.lowerChar_eq_slash hlx ▸ hx)

theorem goodComp_of_mem_dropLast {cs : List Str}
    (h : ∀ c ∈ cs, GoodComp c) : ∀ c ∈ cs.dropLast, GoodComp c :=
  fun c hc => h c (List.mem_of_mem_dropLast hc)

theorem goodComp_map_toLower {cs : List Str} (h : ∀ c ∈ cs, GoodComp c) :
    ∀ c ∈ cs.map Js.toLower, GoodComp c := by
  intro c hc
  obtain ⟨x, hx, rfl⟩ := List.mem_map.1 hc
  exact goodComp_toLower (h x hx)

theorem joinComps_ne_nil {cs : List Str} (h : ∀ c ∈ cs, GoodComp c)
    (hne : cs ≠ []) : joinComps cs ≠ [] := by
  cases cs with
  | nil => exact absurd rfl hne
  | cons c cs' =>
      have hc : c ≠ [] := (h c (List.mem_cons_self c cs')).1
      cases cs' with
      | nil => simpa [joinComps] using hc
      | cons c2 cs'' =>
          simp only [joinComps]
          intro hcontra
          rcases List.append_eq_nil.1 hcontra with ⟨-, h2⟩
          cases h2

theorem joinComps_append {ds e : List Str} (hds : ds ≠ []) (he : e ≠ []) :
    joinComps (ds ++ e) = joinComps ds ++ '/' :: joinComps e := by
  induction ds with
  | nil => exact absurd rfl hds
  | cons d ds' ih =>
      cases ds' with
      | nil =>
          cases e with
          | nil => exact absurd rfl he
          | cons f e' => rfl
      | cons d2 ds'' =>
          have ih' := ih (by simp)
          simp only [List.cons_append] at ih' ⊢
          simp only [joinComps, ih', List.append_assoc, List.cons_append]

theorem splitOnChar_joinComps {cs : List Str} (h : ∀ c ∈ cs, GoodComp c)
    (hne : cs ≠ []) : Js.splitOnChar '/' (joinComps cs) = cs := by
  induction cs with
  | nil => exact absurd rfl hne
  | cons c cs' ih =>
      have hc : '/' ∉ c := (h c (List.mem_cons_self c cs')).2.2.2
      cases cs' with
      | nil => exact Js.splitOnChar_of_not_mem hc
      | cons c2 cs'' =>
          have ih' := ih (fun x hx => h x (List.mem_cons_of_mem c hx)) (by simp)
          simp only [joinComps]
          rw [Js.splitOnChar_sep_mid hc, ih']

theorem splitOnChar_renderAbs {cs : List Str} (h : ∀ c ∈ cs, GoodComp c)
    (hne : cs ≠ []) : Js.splitOnChar '/' (renderAbs cs) = [] :: cs := by
  unfold renderAbs
  rw [Js.splitOnChar_cons_sep, splitOnChar_joinComps h hne]

theorem renderAbs_inj {cs ds : List Str} (hcs : ∀ c ∈ cs, GoodComp c)
    (hds : ∀ c ∈ ds, GoodComp c) (h : renderAbs cs = renderAbs ds) :
    cs = ds := by
  rcases hc : cs with _ | ⟨c, cs'⟩ <;> rcases hd : ds with _ | ⟨d, ds'⟩
  · rfl
  · rw [hc, hd] at h
    simp only [renderAbs, joinComps, List.cons.injEq] at h
    exact absurd h.2.symm
      (joinComps_ne_nil (hd ▸ hds) (List.cons_ne_nil d ds'))
  · rw [hc, hd] at h
    simp only [renderAbs, joinComps, List.cons.injEq] at h
    exact absurd h.2 (joinComps_ne_nil (hc ▸ hcs) (List.cons_ne_nil c cs'))
  · rw [hc, hd] at h
    simp only [renderAbs, List.cons.injEq, true_and] at h
    have h1 := splitOnChar_joinComps (hc ▸ hcs) (List.cons_ne_nil c cs')
    have h2 := splitOnChar_joinComps (hd ▸ hds) (List.cons_ne_nil d ds')
    rw [← h1, ← h2, h]

theorem foldl_normStep_append {cs : List Str} (h : ∀ c ∈ cs, GoodComp c) :
    ∀ acc, cs.foldl normStep acc = acc ++ cs := by
  induction cs with
  | nil => intro acc; simp
  | cons c cs' ih =>
      intro acc
      obtain ⟨h1, h2, h3, _⟩ := h c (List.mem_cons_self c cs')
      have ih' := ih fun x hx => h x (List.mem_cons_of_mem c hx)
      simp only [List.foldl_cons, normStep, h1, h2, h3, or_self, if_false,
        ite_false]
      rw [ih']
      simp

theorem normComps_canonical {cs : List Str} (h : ∀ c ∈ cs, GoodComp c) :
    normComps ([] :: cs) = cs := by
  unfold normComps
  rw [List.foldl_cons]
  have : normStep [] [] = [] := by simp [normStep]
  rw [this, foldl_normStep_append h]
  simp

theorem resolveComps_renderAbs {cs : List Str} (h : ∀ c ∈ cs, GoodComp c)
    (cwd : Str) : resolveComps cwd (renderAbs cs) = cs := by
  unfold resolveComps
  rw [if_pos (by simp [renderAbs])]
  cases hcs : cs with
  | nil => rfl
  | cons c cs' =>
      rw [← hcs, splitOnChar_renderAbs h (by rw [hcs]; simp),
        normComps_canonical h]

theorem resolvePosix_renderAbs {cs : List Str} (h : ∀ c ∈ cs, GoodComp c)
    (cwd : Str) : resolvePosix cwd (renderAbs cs) = renderAbs cs := by
  unfold resolvePosix
  rw [resolveComps_renderAbs h]

theorem normComps_good (l : List Str) (hl : ∀ c ∈ l, '/' ∉ c) :
    ∀ c ∈ normComps l, GoodComp c := by
  unfold normComps
  suffices hgen : ∀ (acc : List Str), (∀ c ∈ acc, GoodComp c) →
      ∀ c ∈ l.foldl normStep acc, GoodComp c from hgen [] (by simp)
  induction l with
  | nil => intro acc hacc; simpa using hacc
  | cons x xs ih =>
      intro acc hacc
      have hx : '/' ∉ x := hl x (List.mem_cons_self x xs)
      have ihx := ih (fun c hc => hl c (List.mem_cons_of_mem x hc))
      rw [List.foldl_cons]
      apply ihx
      unfold normStep
      split_ifs with hskip hdrop
      · exact hacc
      · exact fun c hc => hacc c (List.mem_of_mem_dropLast hc)
      · intro c hc
        rcases List.mem_append.1 hc with hc | hc
        · exact hacc c hc
        · rw [List.mem_singleton.1 hc]
          push_neg at hskip
          exact ⟨hskip.1, hskip.2, hdrop, hx⟩

theorem resolveComps_good (cwd p : Str) :
    ∀ c ∈ resolveComps cwd p, GoodComp c := by
  unfold resolveComps
  split_ifs <;>
  · apply normComps_good
    intro c hc hmem
    have := Js.mem_splitOnPred c hc '/' hmem
    simp at this

theorem toLower_joinComps (cs : List Str) :
    Js.toLower (joinComps cs) = joinComps (cs.map Js.toLower) := by
  induction cs with
  | nil => rfl
  | cons c cs' ih =>
      cases cs' with
      | nil => rfl
      | cons c2 cs'' =>
          have e1 : joinComps (c :: c2 :: cs'')
              = c ++ '/' :: joinComps (c2 :: cs'') := rfl
          have e2 : joinComps ((c :: c2 :: cs'').map Js.toLower)
              = Js.toLower c ++ '/' :: joinComps ((c2 :: cs'').map Js.toLower) := rfl
          rw [e1, e2, ← ih]
          simp [Js.toLower, show Js.lowerChar '/' = '/' from by decide]

theorem toLower_renderAbs (cs : List Str) :
    Js.toLower (renderAbs cs) = renderAbs (cs.map Js.toLower) := by
  simp only [renderAbs, Js.toLower, List.map_cons]
  rw [show Js.lowerChar '/' = '/' from by decide]
  have := toLower_joinComps cs
  simp only [Js.toLower] at this
  rw [this]

theorem dirnamePosix_renderAbs {cs : List Str} (h : ∀ c ∈ cs, GoodComp c) :
    dirnamePosix (renderAbs cs) = renderAbs cs.dropLast := by
  unfold dirnamePosix
  rw [if_pos (by simp [renderAbs])]
  cases hcs : cs with
  | nil => rfl
  | cons c cs' =>
      rw [← hcs, splitOnChar_renderAbs h (by rw [hcs]; simp)]
      have hfld : List.filter (fun part => part ≠ []) ([] :: cs) = cs := by
        rw [List.filter_cons, if_neg (by simp)]
        exact List.filter_eq_self.mpr fun a ha => by
          simpa using (h a ha).1
      rw [hfld]

/-- Nothing below the root is "within" it for the host's comparison:
`"//"` is a prefix of no canonical absolute path. -/
theorem render_root_sep_not_prefix {cs : List Str}
    (h : ∀ c ∈ cs, GoodComp c) :
    ¬ (renderAbs [] ++ ['/']) <+: renderAbs cs := by
  rintro ⟨t, ht⟩
  simp only [renderAbs, joinComps, List.cons_append, List.nil_append,
    List.cons.injEq] at ht
  obtain ⟨-, ht⟩ := ht
  cases hcs : cs with
  | nil => rw [hcs] at ht; cases ht
  | cons c cs' =>
      rw [hcs] at ht
      have hc := h c (hcs ▸ List.mem_cons_self c cs')
      cases hc2 : c with
      | nil => exact hc.1 hc2
      | cons x c' =>
          rw [hc2] at ht
          cases cs' with
          | nil =>
              simp only [joinComps, List.cons.injEq] at ht
              exact hc.2.2.2 (hc2 ▸ (ht.1 ▸ List.mem_cons_self x c'))
          | cons c2 cs'' =>
              simp only [joinComps, List.cons_append, List.cons.injEq] at ht
              exact hc.2.2.2 (hc2 ▸ (ht.1 ▸ List.mem_cons_self x c'))

/-- Decomposition of a canonical path extending `joinComps ds ++ "/"`. -/
theorem joinComps_prefix_decomp :
    ∀ {ds cs : List Str} {t : Str}, (∀ c ∈ ds, GoodComp c) →
      (∀ c ∈ cs, GoodComp c) → ds ≠ [] →
      joinComps cs = joinComps ds ++ '/' :: t →
      ∃ e, e ≠ [] ∧ cs = ds ++ e := by
  intro ds
  induction ds with
  | nil => intro cs t _ _ hne; exact absurd rfl hne
  | cons d ds' ih =>
      intro cs t hds hcs _ heq
      have hd : GoodComp d := hds d (List.mem_cons_self d ds')
      cases ds' with
      | nil =>
          simp only [joinComps] at heq
          rcases cs with _ | ⟨c, _ | ⟨c2, cs''⟩⟩
          · simp [joinComps] at heq
          · have hc : GoodComp c := hcs c (List.mem_cons_self c [])
            simp only [joinComps] at heq
            exact absurd
              (heq ▸ List.mem_append.2 (Or.inr (List.mem_cons_self '/' t)))
              hc.2.2.2
          · have hc : GoodComp c := hcs c (List.mem_cons_self c (c2 :: cs''))
            simp only [joinComps] at heq
            obtain ⟨rfl, -⟩ := append_sep_inj hc.2.2.2 hd.2.2.2 heq
            exact ⟨c2 :: cs'', by simp, rfl⟩
      | cons d2 ds'' =>
          have hjoin : joinComps (d :: d2 :: ds'') ++ '/' :: t
              = d ++ '/' :: (joinComps (d2 :: ds'') ++ '/' :: t) := by
            simp [joinComps, List.append_assoc]
          rw [hjoin] at heq
          rcases cs with _ | ⟨c, _ | ⟨c2, cs''⟩⟩
          · simp [joinComps] at heq
          · have hc : GoodComp c := hcs c (List.mem_cons_self c [])
            simp only [joinComps] at heq
            exact absurd
              (heq ▸ List.mem_append.2 (Or.inr (List.mem_cons_self '/' _)))
              hc.2.2.2
          · have hc : GoodComp c := hcs c (List.mem_cons_self c (c2 :: cs''))
            simp only [joinComps] at heq
            obtain ⟨rfl, heq2⟩ := append_sep_inj hc.2.2.2 hd.2.2.2 heq
            obtain ⟨e, he, hdec⟩ := ih
              (fun x hx => hds x (List.mem_cons_of_mem _ hx))
              (fun x hx => hcs x (List.mem_cons_of_mem _ hx))
              (by simp) heq2
            refine ⟨e, he, ?_⟩
            rw [show c :: c2 :: cs'' = c :: (c2 :: cs'') from rfl, hdec]
            simp

/-- The host's prefix-plus-separator comparison between canonical absolute
paths is exactly proper directory ancestry, for a non-root ancestor. -/
theorem render_sep_prefix_iff {cs ds : List Str}
    (hcs : ∀ c ∈ cs, GoodComp c) (hds : ∀ c ∈ ds, GoodComp c)
    (hne : ds ≠ []) :
    (renderAbs ds ++ ['/']) <+: renderAbs cs ↔ (ds <+: cs ∧ ds ≠ cs) := by
  constructor
  · rintro ⟨t, ht⟩
    simp only [renderAbs, List.cons_append, List.append_assoc,
      List.cons.injEq, List.singleton_append] at ht
    obtain ⟨-, ht⟩ := ht
    obtain ⟨e, he, rfl⟩ := joinComps_prefix_decomp hds hcs hne ht.symm
    refine ⟨⟨e, rfl⟩, fun hcontra => he ?_⟩
    have hlen := congrArg List.length hcontra
    rw [List.length_append] at hlen
    exact List.length_eq_zero.1 (by omega)
  · rintro ⟨⟨e, rfl⟩, hne2⟩
    have he : e ≠ [] := by
      rintro rfl
      exact hne2 (by simp)
    refine ⟨joinComps e, ?_⟩
    simp only [renderAbs, List.cons_append, List.append_assoc,
      List.singleton_append, List.cons.injEq, true_and]
    rw [joinComps_append hne he]
    simp

end NodePath

namespace PtyHost

open Js NodePath

/-- The host's `isPathWithinBoundary` against a canonical boundary is
exactly "equal, or nested strictly under a non-root directory", on
lower-cased resolved component lists. -/
theorem isPathWithinBoundary_canon (cwd target : Str) {ds : List Str}
    (hds : ∀ c ∈ ds, GoodComp c) :
    isPathWithinBoundary cwd target (some (renderAbs ds)) = true
      ↔ SpecSide.eqOrNestedNonRoot ((resolveComps cwd target).map Js.toLower)
          (ds.map Js.toLower) := by
  have hctg : ∀ c ∈ resolveComps cwd target, GoodComp c :=
    resolveComps_good cwd target
  have hct' := goodComp_map_toLower hctg
  have hds' := goodComp_map_toLower hds
  have e1 : Js.toLower (resolvePosix cwd target)
      = renderAbs ((resolveComps cwd target).map Js.toLower) := by
    rw [resolvePosix, toLower_renderAbs]
  have e2 : Js.toLower (resolvePosix cwd (renderAbs ds))
      = renderAbs (ds.map Js.toLower) := by
    rw [resolvePosix_renderAbs hds, toLower_renderAbs]
  simp only [isPathWithinBoundary]
  rw [if_neg (by simp [renderAbs])]
  simp only [e1, e2, Bool.or_eq_true, beq_iff_eq, List.isPrefixOf_iff_prefix]
  unfold SpecSide.eqOrNestedNonRoot
  constructor
  · rintro (heq | hpre)
    · exact Or.inl (renderAbs_inj hct' hds' heq)
    · have hd0 : ds.map Js.toLower ≠ [] := by
        intro h0
        rw [h0] at hpre
        exact render_root_sep_not_prefix hct' hpre
      obtain ⟨hp, -⟩ := (render_sep_prefix_iff hct' hds' hd0).1 hpre
      exact Or.inr ⟨hd0, hp⟩
  · rintro (heq | ⟨hd0, hp⟩)
    · exact Or.inl (congrArg renderAbs heq)
    · by_cases heq2 : (resolveComps cwd target).map Js.toLower = ds.map Js.toLower
      · exact Or.inl (congrArg renderAbs heq2)
      · exact Or.inr ((render_sep_prefix_iff hct' hds' hd0).2
          ⟨hp, fun h => heq2 h.symm⟩)

/-- The host's full three-way boundary stage against a canonical boundary
is exactly the amended containment relation of C2. -/
theorem boundaryCheckPasses_canon {cwd target : Str} {bs : List Str}
    (hbs : ∀ c ∈ bs, GoodComp c) :
    boundaryCheckPasses cwd target (renderAbs bs) = true
      ↔ SpecSide.specContainedAmended cwd target (renderAbs bs) := by
  have hbs1 : ∀ c ∈ bs.dropLast, GoodComp c := goodComp_of_mem_dropLast hbs
  have hbs2 : ∀ c ∈ bs.dropLast.dropLast, GoodComp c :=
    goodComp_of_mem_dropLast hbs1
  have h1 := isPathWithinBoundary_canon cwd target hbs
  have h2 := isPathWithinBoundary_canon cwd target hbs1
  have h3 := isPathWithinBoundary_canon cwd target hbs2
  simp only [boundaryCheckPasses]
  rw [dirnamePosix_renderAbs hbs, dirnamePosix_renderAbs hbs1]
  simp only [Bool.or_eq_true, h1, h2, h3]
  unfold SpecSide.specContainedAmended
  rw [resolveComps_renderAbs hbs]
  rw [List.map_dropLast, List.map_dropLast, List.map_dropLast, or_assoc]

end PtyHost

/-! ### Claim theorems about the PTY host and the framing -/

/-- C9: a wire message split over two read chunks — a newline-free partial
line, then its remainder plus the terminating newline — yields no message
after the first chunk and exactly one parsed message (with an empty buffer)
after the second; moreover a complete line that fails to parse is dropped
without terminating the stream or affecting later lines. -/
theorem framing_two_chunks_one_message {M : Type} (parse : Str → Option M)
    (a b : Str) (m : M) (ha : '\n' ∉ a) (hb : '\n' ∉ b)
    (hparse : parse (a ++ b) = some m) (hblank : Js.trim (a ++ b) ≠ []) :
    (Framing.processChunk [] a).1 = a
    ∧ Framing.parseLines parse (Framing.processChunk [] a).2 = []
    ∧ (Framing.processChunk a (b ++ ['\n'])).1 = []
    ∧ Framing.parseLines parse (Framing.processChunk a (b ++ ['\n'])).2 = [m]
    ∧ ∀ (bad : Str) (rest : List Str), parse bad = none →
        Framing.parseLines parse (bad :: rest) = Framing.parseLines parse rest := by
  have hab : '\n' ∉ a ++ b := by
    intro hmem
    rcases List.mem_append.1 hmem with hmem | hmem
    exacts [ha hmem, hb hmem]
  have h1 : Js.splitOnChar '\n' a = [a] := Js.splitOnChar_of_not_mem ha
  have h2 : Js.splitOnChar '\n' (a ++ (b ++ ['\n'])) = [a ++ b, []] := by
    rw [← List.append_assoc]
    exact Js.splitOnChar_append_sep hab
  refine ⟨?_, ?_, ?_, ?_, ?_⟩
  · simp [Framing.processChunk, h1]
  · simp [Framing.processChunk, h1, Framing.parseLines]
  · simp [Framing.processChunk, h2]
  · simp [Framing.processChunk, h2, Framing.parseLines, hblank, hparse]
  · intro bad rest hbad
    by_cases hbk : Js.trim bad = []
    · simp [Framing.parseLines, hbk]
    · simp [Framing.parseLines, hbk, hbad]

/-- Witness for the C9 theorem: the line `ab` split as `a` + `b\n`, with a
parser recognizing exactly `ab`. -/
theorem framing_two_chunks_one_message_witness :
    ('\n' ∉ String.toList "a")
    ∧ ('\n' ∉ String.toList "b")
    ∧ ((fun s => if s = String.toList "ab" then some 1 else none)
        (String.toList "a" ++ String.toList "b") = some 1)
    ∧ Js.trim (String.toList "a" ++ String.toList "b") ≠ []
    ∧ (Framing.processChunk [] (String.toList "a")).1 = String.toList "a"
    ∧ Framing.parseLines
        (fun s => if s = String.toList "ab" then some 1 else none)
        (Framing.processChunk [] (String.toList "a")).2 = []
    ∧ (Framing.processChunk (String.toList "a") (String.toList "b" ++ ['\n'])).1 = []
    ∧ Framing.parseLines
        (fun s => if s = String.toList "ab" then some 1 else none)
        (Framing.processChunk (String.toList "a") (String.toList "b" ++ ['\n'])).2
        = [1] :=
  ⟨by decide, by decide, by decide, by decide,
    (framing_two_chunks_one_message
      (fun s => if s = String.toList "ab" then some 1 else none)
      (String.toList "a") (String.toList "b") 1 (by decide) (by decide)
      (by decide) (by decide)).1,
    (framing_two_chunks_one_message
      (fun s => if s = String.toList "ab" then some 1 else none)
      (String.toList "a") (String.toList "b") 1 (by decide) (by decide)
      (by decide) (by decide)).2.1,
    (framing_two_chunks_one_message
      (fun s => if s = String.toList "ab" then some 1 else none)
      (String.toList "a") (String.toList "b") 1 (by decide) (by decide)
      (by decide) (by decide)).2.2.1,
    (framing_two_chunks_one_message
      (fun s => if s = String.toList "ab" then some 1 else none)
      (String.toList "a") (String.toList "b") 1 (by decide) (by decide)
      (by decide) (by decide)).2.2.2.1⟩

/-- C1 (counterexample): the host does not make the boundary immutable — in
a state whose boundary is `/a`, a further set-boundary request for the
existing directory `/b` stores `/b`. -/
theorem boundary_overwritten_counterexample :
    (PtyHost.handleMessage (fun _ => true) .threw (fun s => s)
        ⟨none, some (String.toList "/a"), String.toList "/", .linux⟩
        (.setBoundary (some (String.toList "/b")))).1.vaultBoundary
      = some (String.toList "/b")
    ∧ (some (String.toList "/b") : Option Str) ≠ some (String.toList "/a") :=
  ⟨by decide, by decide⟩

/-- C1 (amended): the boundary is not immutable.  Once set, a further
set-boundary request carrying a non-empty path of an existing directory
replaces the stored boundary with the newly resolved path (and
re-acknowledges with `boundary-set`); only requests with a missing or empty
path, or a path that is not a directory, leave the boundary unchanged. -/
theorem set_boundary_replaces (fs : Str → Bool) (pr : PtyHost.PtyOutcome)
    (rp : Str → Str) (st : PtyHost.HostState) (b p : Str) (q : Option Str)
    (_hset : st.vaultBoundary = some b) (hp : p ≠ []) (hfs : fs p = true)
    (hq : q = none ∨ q = some [] ∨ ∀ s, q = some s → fs s = false) :
    (PtyHost.handleMessage fs pr rp st (.setBoundary (some p))).1.vaultBoundary
        = some (NodePath.resolvePosix st.processCwd p)
    ∧ (PtyHost.handleMessage fs pr rp st (.setBoundary (some p))).2
        = [.boundarySet (NodePath.resolvePosix st.processCwd p)]
    ∧ PtyHost.handleMessage fs pr rp st (.setBoundary q) = (st, []) := by
  refine ⟨by simp [PtyHost.handleMessage, hp, hfs], by simp [PtyHost.handleMessage, hp, hfs], ?_⟩
  rcases hq with rfl | rfl | hall
  · simp [PtyHost.handleMessage]
  · simp [PtyHost.handleMessage]
  · cases q with
    | none => simp [PtyHost.handleMessage]
    | some s => simp [PtyHost.handleMessage, hall s rfl]

/-- Witness for the amended C1 theorem: boundary `/a` replaced by `/b`. -/
theorem set_boundary_replaces_witness :
    ((⟨none, some (String.toList "/a"), String.toList "/", .linux⟩ :
        PtyHost.HostState).vaultBoundary = some (String.toList "/a"))
    ∧ (String.toList "/b" ≠ [])
    ∧ ((fun _ => true) (String.toList "/b") = true)
    ∧ ((PtyHost.handleMessage (fun _ => true) .threw (fun s => s)
          ⟨none, some (String.toList "/a"), String.toList "/", .linux⟩
          (.setBoundary (some (String.toList "/b")))).1.vaultBoundary
        = some (NodePath.resolvePosix (String.toList "/") (String.toList "/b"))
      ∧ (PtyHost.handleMessage (fun _ => true) .threw (fun s => s)
          ⟨none, some (String.toList "/a"), String.toList "/", .linux⟩
          (.setBoundary (some (String.toList "/b")))).2
        = [.boundarySet (NodePath.resolvePosix (String.toList "/") (String.toList "/b"))]
      ∧ PtyHost.handleMessage (fun _ => true) .threw (fun s => s)
          ⟨none, some (String.toList "/a"), String.toList "/", .linux⟩
          (.setBoundary none)
        = (⟨none, some (String.toList "/a"), String.toList "/", .linux⟩, [])) :=
  ⟨by decide, by decide, by decide,
    set_boundary_replaces (fun _ => true) .threw (fun s => s)
      ⟨none, some (String.toList "/a"), String.toList "/", .linux⟩
      (String.toList "/a") (String.toList "/b") none
      (by decide) (by decide) (by decide) (Or.inl rfl)⟩

/-- C4: while a shell is already active, every spawn request is rejected
with `DOUBLE_SPAWN` and the host state — the live pty and the boundary —
is returned untouched. -/
theorem double_spawn_rejected (fs : Str → Bool) (pr : PtyHost.PtyOutcome)
    (rp : Str → Str) (st : PtyHost.HostState) (o : PtyHost.SpawnOptions)
    (pid : Nat) (h : st.ptyProcess = some pid) :
    PtyHost.spawnPty fs pr rp st o = (st, [.err .DOUBLE_SPAWN])
    ∧ (PtyHost.spawnPty fs pr rp st o).1.ptyProcess = some pid
    ∧ (PtyHost.spawnPty fs pr rp st o).1.vaultBoundary = st.vaultBoundary := by
  have hmain : PtyHost.spawnPty fs pr rp st o = (st, [.err .DOUBLE_SPAWN]) := by
    simp [PtyHost.spawnPty, h]
  exact ⟨hmain, by rw [hmain]; exact h, by rw [hmain]⟩

/-- Witness for the C4 theorem. -/
theorem double_spawn_rejected_witness :
    ((⟨some 7, none, String.toList "/", .linux⟩ :
        PtyHost.HostState).ptyProcess = some 7)
    ∧ (PtyHost.spawnPty (fun _ => true) (.ok 9) (fun s => s)
        ⟨some 7, none, String.toList "/", .linux⟩
        ⟨String.toList "bash", String.toList "/", 80, 24, []⟩
      = (⟨some 7, none, String.toList "/", .linux⟩, [.err .DOUBLE_SPAWN])
      ∧ (PtyHost.spawnPty (fun _ => true) (.ok 9) (fun s => s)
          ⟨some 7, none, String.toList "/", .linux⟩
          ⟨String.toList "bash", String.toList "/", 80, 24, []⟩).1.ptyProcess
        = some 7
      ∧ (PtyHost.spawnPty (fun _ => true) (.ok 9) (fun s => s)
          ⟨some 7, none, String.toList "/", .linux⟩
          ⟨String.toList "bash", String.toList "/", 80, 24, []⟩).1.vaultBoundary
        = (⟨some 7, none, String.toList "/", .linux⟩ :
            PtyHost.HostState).vaultBoundary) :=
  ⟨rfl,
    double_spawn_rejected (fun _ => true) (.ok 9) (fun s => s)
      ⟨some 7, none, String.toList "/", .linux⟩
      ⟨String.toList "bash", String.toList "/", 80, 24, []⟩ 7 rfl⟩

/-- No branch of the containment-free pipeline emits
`CWD_OUTSIDE_BOUNDARY`. -/
theorem cwd_error_not_in_unchecked (fs : Str → Bool) (pr : PtyHost.PtyOutcome)
    (rp : Str → Str) (st : PtyHost.HostState) (o : PtyHost.SpawnOptions) :
    ∀ msg ∈ (PtyHost.spawnPtyUnchecked fs pr rp st o).2,
      msg ≠ PtyHost.OutMsg.err .CWD_OUTSIDE_BOUNDARY := by
  intro msg hmsg
  cases pr <;>
    (unfold PtyHost.spawnPtyUnchecked at hmsg
     split_ifs at hmsg <;> simp_all)

/-- C10: a set-boundary request with a missing, empty or non-directory path
changes nothing and sends no reply (no acknowledgement, no error); with
the boundary still unset, every spawn request is processed with no
boundary-containment check at all — the pipeline coincides with the
containment-free one and can never emit `CWD_OUTSIDE_BOUNDARY`. -/
theorem invalid_set_boundary_silent_and_unchecked (fs : Str → Bool)
    (pr : PtyHost.PtyOutcome) (rp : Str → Str) (st : PtyHost.HostState)
    (q : Option Str) (o : PtyHost.SpawnOptions)
    (hq : q = none ∨ q = some [] ∨ ∀ s, q = some s → fs s = false)
    (hb : st.vaultBoundary = none) :
    PtyHost.handleMessage fs pr rp st (.setBoundary q) = (st, [])
    ∧ PtyHost.spawnPty fs pr rp st o = PtyHost.spawnPtyUnchecked fs pr rp st o
    ∧ ∀ msg ∈ (PtyHost.spawnPty fs pr rp st o).2,
        msg ≠ PtyHost.OutMsg.err .CWD_OUTSIDE_BOUNDARY := by
  have hstage : PtyHost.boundaryStageRejects st o.cwd = false := by
    simp [PtyHost.boundaryStageRejects, hb]
  have hsame : PtyHost.spawnPty fs pr rp st o
      = PtyHost.spawnPtyUnchecked fs pr rp st o := by
    simp [PtyHost.spawnPty, PtyHost.spawnPtyUnchecked, hstage]
  refine ⟨?_, hsame, ?_⟩
  · rcases hq with rfl | rfl | hall
    · simp [PtyHost.handleMessage]
    · simp [PtyHost.handleMessage]
    · cases q with
      | none => simp [PtyHost.handleMessage]
      | some s => simp [PtyHost.handleMessage, hall s rfl]
  · rw [hsame]
    exact cwd_error_not_in_unchecked fs pr rp st o

/-- Witness for the C10 theorem: an empty-path set-boundary request on a
fresh host, followed by a spawn. -/
theorem invalid_set_boundary_silent_and_unchecked_witness :
    ((some [] : Option Str) = none ∨ (some [] : Option Str) = some [] ∨
        ∀ s, (some [] : Option Str) = some s → (fun _ => true) s = false)
    ∧ ((⟨none, none, String.toList "/", .linux⟩ :
          PtyHost.HostState).vaultBoundary = none)
    ∧ (PtyHost.handleMessage (fun _ => true) (.ok 9) (fun s => s)
          ⟨none, none, String.toList "/", .linux⟩ (.setBoundary (some []))
        = (⟨none, none, String.toList "/", .linux⟩, [])
      ∧ PtyHost.spawnPty (fun _ => true) (.ok 9) (fun s => s)
          ⟨none, none, String.toList "/", .linux⟩
          ⟨String.toList "bash", String.toList "/x", 80, 24, []⟩
        = PtyHost.spawnPtyUnchecked (fun _ => true) (.ok 9) (fun s => s)
          ⟨none, none, String.toList "/", .linux⟩
          ⟨String.toList "bash", String.toList "/x", 80, 24, []⟩
      ∧ ∀ msg ∈ (PtyHost.spawnPty (fun _ => true) (.ok 9) (fun s => s)
          ⟨none, none, String.toList "/", .linux⟩
          ⟨String.toList "bash", String.toList "/x", 80, 24, []⟩).2,
          msg ≠ PtyHost.OutMsg.err .CWD_OUTSIDE_BOUNDARY) :=
  ⟨Or.inr (Or.inl rfl), rfl,
    invalid_set_boundary_silent_and_unchecked (fun _ => true) (.ok 9)
      (fun s => s) ⟨none, none, String.toList "/", .linux⟩ (some [])
      ⟨String.toList "bash", String.toList "/x", 80, 24, []⟩
      (Or.inr (Or.inl rfl)) rfl⟩

/-- C3: a spawn's shell string passes the whitelist exactly when it matches
an allow-list entry case-insensitively by full string, path-suffix or bare
name; a non-matching shell is rejected with `SHELL_NOT_ALLOWED` and no
shell is spawned.  In particular `powershell.exe` and `pwsh` pass on
Windows, `/bin/bash` and `/bin/zsh` on POSIX, while `rm`, `python` and
`C:\evil.exe` fail on every platform. -/
theorem shell_whitelist_correct (pf : NodePath.Platform) (shell : Str)
    (fs : Str → Bool) (pr : PtyHost.PtyOutcome) (rp : Str → Str)
    (st : PtyHost.HostState) (o : PtyHost.SpawnOptions)
    (hpty : st.ptyProcess = none)
    (hsh : PtyHost.isShellAllowed st.platform o.shell = false) :
    (PtyHost.isShellAllowed pf shell = true ↔ SpecSide.specShellMatches pf shell)
    ∧ PtyHost.spawnPty fs pr rp st o = (st, [.err .SHELL_NOT_ALLOWED])
    ∧ PtyHost.isShellAllowed .win32 (String.toList "powershell.exe") = true
    ∧ PtyHost.isShellAllowed .win32 (String.toList "pwsh") = true
    ∧ PtyHost.isShellAllowed .linux (String.toList "/bin/bash") = true
    ∧ PtyHost.isShellAllowed .linux (String.toList "/bin/zsh") = true
    ∧ PtyHost.isShellAllowed .darwin (String.toList "/bin/bash") = true
    ∧ PtyHost.isShellAllowed .darwin (String.toList "/bin/zsh") = true
    ∧ PtyHost.isShellAllowed .win32 (String.toList "rm") = false
    ∧ PtyHost.isShellAllowed .darwin (String.toList "rm") = false
    ∧ PtyHost.isShellAllowed .linux (String.toList "rm") = false
    ∧ PtyHost.isShellAllowed .win32 (String.toList "python") = false
    ∧ PtyHost.isShellAllowed .darwin (String.toList "python") = false
    ∧ PtyHost.isShellAllowed .linux (String.toList "python") = false
    ∧ PtyHost.isShellAllowed .win32 (String.toList "C:\\evil.exe") = false
    ∧ PtyHost.isShellAllowed .darwin (String.toList "C:\\evil.exe") = false
    ∧ PtyHost.isShellAllowed .linux (String.toList "C:\\evil.exe") = false := by
  refine ⟨?_, by simp [PtyHost.spawnPty, hpty, hsh], by decide, by decide,
    by decide, by decide, by decide, by decide, by decide, by decide, by decide,
    by decide, by decide, by decide, by decide, by decide, by decide⟩
  simp only [PtyHost.isShellAllowed, SpecSide.specShellMatches,
    List.any_eq_true, Bool.or_eq_true, beq_iff_eq, List.isSuffixOf_iff_suffix,
    or_assoc]

/-- Witness for the C3 theorem: shell `rm` on a fresh Linux host. -/
theorem shell_whitelist_correct_witness :
    ((⟨none, none, String.toList "/", .linux⟩ :
        PtyHost.HostState).ptyProcess = none)
    ∧ PtyHost.isShellAllowed .linux (String.toList "rm") = false
    ∧ (PtyHost.isShellAllowed .linux (String.toList "rm") = true
        ↔ SpecSide.specShellMatches .linux (String.toList "rm"))
    ∧ PtyHost.spawnPty (fun _ => true) (.ok 9) (fun s => s)
        ⟨none, none, String.toList "/", .linux⟩
        ⟨String.toList "rm", String.toList "/", 80, 24, []⟩
      = (⟨none, none, String.toList "/", .linux⟩, [.err .SHELL_NOT_ALLOWED]) :=
  ⟨rfl, by decide,
    (shell_whitelist_correct .linux (String.toList "rm") (fun _ => true) (.ok 9)
      (fun s => s) ⟨none, none, String.toList "/", .linux⟩
      ⟨String.toList "rm", String.toList "/", 80, 24, []⟩ rfl (by decide)).1,
    (shell_whitelist_correct .linux (String.toList "rm") (fun _ => true) (.ok 9)
      (fun s => s) ⟨none, none, String.toList "/", .linux⟩
      ⟨String.toList "rm", String.toList "/", 80, 24, []⟩ rfl (by decide)).2.1⟩

/-- C2 (counterexample): with boundary `/vault`, the working directory
`/totally/unrelated` is nested under the boundary's parent directory `/`
(so the claim's containment relation holds and the claim as stated demands
acceptance), yet the host's containment check fails and the spawn request
is rejected with `CWD_OUTSIDE_BOUNDARY` — the claimed "if and only if" is
false at the claim's own example input. -/
theorem boundary_containment_counterexample :
    SpecSide.specContained (String.toList "/") (String.toList "/totally/unrelated")
      (String.toList "/vault")
    ∧ PtyHost.boundaryCheckPasses (String.toList "/")
        (String.toList "/totally/unrelated") (String.toList "/vault") = false
    ∧ PtyHost.spawnPty (fun _ => true) (.ok 9) (fun s => s)
        ⟨none, some (String.toList "/vault"), String.toList "/", .linux⟩
        ⟨String.toList "bash", String.toList "/totally/unrelated", 80, 24, []⟩
      = (⟨none, some (String.toList "/vault"), String.toList "/", .linux⟩,
         [.err .CWD_OUTSIDE_BOUNDARY]) :=
  ⟨by decide, by decide, by decide⟩

/-- C2 (amended): for a spawn request whose working directory exists, with
a set (canonical) boundary, a whitelisted shell and no active pty, the
containment check passes exactly when the resolved working directory is
equal to, or nested under, the boundary, its parent or its grandparent
directory — case-insensitively on resolved absolute paths — with the
proviso that a path strictly below the filesystem root does not count as
nested under `/` (the comparison appends a separator to the boundary, so
the root matches only itself).  On failure the host replies
`CWD_OUTSIDE_BOUNDARY` and spawns nothing; on success it never emits that
error.  The spec's boundary table holds as stated. -/
theorem boundary_containment_correct (fs : Str → Bool)
    (pr : PtyHost.PtyOutcome) (rp : Str → Str) (st : PtyHost.HostState)
    (o : PtyHost.SpawnOptions) (bs : List Str)
    (hbs : ∀ c ∈ bs, NodePath.GoodComp c)
    (hb : st.vaultBoundary = some (NodePath.renderAbs bs))
    (hpty : st.ptyProcess = none)
    (hshell : PtyHost.isShellAllowed st.platform o.shell = true)
    (hdir : fs o.cwd = true) :
    (PtyHost.boundaryCheckPasses st.processCwd o.cwd (NodePath.renderAbs bs) = true
      ↔ SpecSide.specContainedAmended st.processCwd o.cwd (NodePath.renderAbs bs))
    ∧ (PtyHost.boundaryCheckPasses st.processCwd o.cwd (NodePath.renderAbs bs) = false →
        PtyHost.spawnPty fs pr rp st o = (st, [.err .CWD_OUTSIDE_BOUNDARY]))
    ∧ (PtyHost.boundaryCheckPasses st.processCwd o.cwd (NodePath.renderAbs bs) = true →
        PtyHost.OutMsg.err .CWD_OUTSIDE_BOUNDARY ∉ (PtyHost.spawnPty fs pr rp st o).2)
    ∧ PtyHost.boundaryCheckPasses (String.toList "/") (String.toList "/vault/sub")
        (String.toList "/vault") = true
    ∧ PtyHost.boundaryCheckPasses (String.toList "/") (String.toList "/vault/..")
        (String.toList "/vault") = true
    ∧ PtyHost.boundaryCheckPasses (String.toList "/") (String.toList "/vault/../..")
        (String.toList "/vault") = true
    ∧ PtyHost.boundaryCheckPasses (String.toList "/")
        (String.toList "/totally/unrelated") (String.toList "/vault") = false := by
  refine ⟨PtyHost.boundaryCheckPasses_canon hbs, ?_, ?_, by decide, by decide,
    by decide, by decide⟩
  · intro hfail
    have hstage : PtyHost.boundaryStageRejects st o.cwd = true := by
      simp [PtyHost.boundaryStageRejects, hb, hfail]
    simp [PtyHost.spawnPty, hpty, hshell, hdir, hstage]
  · intro hpass
    have hstage : PtyHost.boundaryStageRejects st o.cwd = false := by
      simp [PtyHost.boundaryStageRejects, hb, hpass]
    cases pr <;> simp [PtyHost.spawnPty, hpty, hshell, hdir, hstage]

/-- Witness for the amended C2 theorem: boundary `/vault`, working
directory `/vault/sub`, shell `bash` on Linux. -/
theorem boundary_containment_correct_witness :
    (∀ c ∈ [String.toList "vault"], NodePath.GoodComp c)
    ∧ ((⟨none, some (NodePath.renderAbs [String.toList "vault"]),
          String.toList "/", .linux⟩ : PtyHost.HostState).vaultBoundary
        = some (NodePath.renderAbs [String.toList "vault"]))
    ∧ PtyHost.isShellAllowed .linux (String.toList "bash") = true
    ∧ ((PtyHost.boundaryCheckPasses (String.toList "/") (String.toList "/vault/sub")
          (NodePath.renderAbs [String.toList "vault"]) = true
        ↔ SpecSide.specContainedAmended (String.toList "/")
            (String.toList "/vault/sub")
            (NodePath.renderAbs [String.toList "vault"]))
      ∧ (PtyHost.boundaryCheckPasses (String.toList "/") (String.toList "/vault/sub")
            (NodePath.renderAbs [String.toList "vault"]) = false →
          PtyHost.spawnPty (fun _ => true) (.ok 9) (fun s => s)
            ⟨none, some (NodePath.renderAbs [String.toList "vault"]),
              String.toList "/", .linux⟩
            ⟨String.toList "bash", String.toList "/vault/sub", 80, 24, []⟩
          = (⟨none, some (NodePath.renderAbs [String.toList "vault"]),
              String.toList "/", .linux⟩, [.err .CWD_OUTSIDE_BOUNDARY]))
      ∧ (PtyHost.boundaryCheckPasses (String.toList "/") (String.toList "/vault/sub")
            (NodePath.renderAbs [String.toList "vault"]) = true →
          PtyHost.OutMsg.err .CWD_OUTSIDE_BOUNDARY
            ∉ (PtyHost.spawnPty (fun _ => true) (.ok 9) (fun s => s)
                ⟨none, some (NodePath.renderAbs [String.toList "vault"]),
                  String.toList "/", .linux⟩
                ⟨String.toList "bash", String.toList "/vault/sub", 80, 24, []⟩).2)
      ∧ PtyHost.boundaryCheckPasses (String.toList "/") (String.toList "/vault/sub")
          (String.toList "/vault") = true
      ∧ PtyHost.boundaryCheckPasses (String.toList "/") (String.toList "/vault/..")
          (String.toList "/vault") = true
      ∧ PtyHost.boundaryCheckPasses (String.toList "/") (String.toList "/vault/../..")
          (String.toList "/vault") = true
      ∧ PtyHost.boundaryCheckPasses (String.toList "/")
          (String.toList "/totally/unrelated") (String.toList "/vault") = false) :=
  ⟨by decide, rfl, by decide,
    boundary_containment_correct (fun _ => true) (.ok 9) (fun s => s)
      ⟨none, some (NodePath.renderAbs [String.toList "vault"]),
        String.toList "/", .linux⟩
      ⟨String.toList "bash", String.toList "/vault/sub", 80, 24, []⟩
      [String.toList "vault"] (by decide) rfl rfl (by decide) rfl⟩

end CCTerm
